import Mathlib

/-!
Shallow embedding of the nengo_ocl execution engine
(files nengo_ocl/clra_nonlinearities.py and nengo_ocl/sim_ocl.py)
and proofs about it.

Conventions used throughout:
* machine floats are modelled as exact rationals (for the LIF state
  machine, where the code uses only field operations and comparisons)
  or as reals (for the rate rule, which calls the transcendental
  builtin log1p);
* C int32 counters are modelled as Int (all values reached in the
  claims stay far from the 32-bit range);
* device buffers are Lists, reads are List.getD with a default
  element standing for an arbitrary out-of-range word;
* a parallel kernel launch is modelled by the collection of writes it
  performs, each write tagged with the logical row and in-row offset
  it targets.
-/

set_option maxHeartbeats 1000000

namespace NengoOCL

/-! ### Probe sampler kernel (plan_probes, clra_nonlinearities.py lines 42-89)

Per row n, the generated kernel keeps two int32 counters.  If the
countdown is zero it copies the sampled vector into ring slot
bufpositions[n] and then sets countdowns[n] = periods[n] - 1 and
bufpositions[n] = bufpos + 1; otherwise it just decrements the
countdown.  The counter update below is the per-row effect of one
kernel launch. -/
def probeRowStep (period : Int) (s : Int × Nat) : Int × Nat :=
  if s.1 = 0 then (period - 1, s.2 + 1) else (s.1 - 1, s.2)

/-- Branch decision of one work-item of the probe kernel: work-item
(gid0, gid1) reads n = get_global_id(1) and the pre-kernel value of
countdowns[n], and enters the copy branch iff that value is zero.
Both arguments gid0 and gid1 are passed to mirror the kernel, whose
branch expression is countdowns[n] == 0 with n = get_global_id(1);
the only write to countdowns[n] is made by work-item 0 of row n after
the barrier, so every work-item of the row reads the pre-kernel
value. -/
def probeBranch (countdowns : List Int) (gid0 gid1 : Nat) : Bool :=
  let n := gid1
  let countdown := countdowns.getD n 0
  countdown == 0

/-! ### Simulator probe machinery (sim_ocl.py)

State of one probe row as seen by Simulator.run_steps: the device
counters, the device ring contents (ring slot i holds the i-th sample
taken since the last drain; its length equals bufpos whenever the
state is reachable), and the host-side accumulated probe_outputs.
The field t counts completed simulation ticks; sig t is the value of
the probed signal after tick t (the probe plan runs after all
operator plans of the tick, so a sample taken during tick t stores
sig t). -/
structure ProbeState (α : Type) where
  t : Nat
  countdown : Int
  bufpos : Nat
  ring : List α
  host : List α

/-- One simulation tick as it affects one probe row: the DAG advances
the model, then the probe kernel runs once. -/
def tick (period : Int) (sig : Nat → α) (s : ProbeState α) : ProbeState α :=
  let t1 := s.t + 1
  if s.countdown = 0 then
    { t := t1, countdown := period - 1, bufpos := s.bufpos + 1,
      ring := s.ring ++ [sig t1], host := s.host }
  else
    { t := t1, countdown := s.countdown - 1, bufpos := s.bufpos, ring := s.ring,
      host := s.host }

/-- drain_probe_buffers (sim_ocl.py lines 197-209): read bufpositions,
append the first n_buffered buffered samples of the row to the host
log, then zero bufpositions. -/
def drain (s : ProbeState α) : ProbeState α :=
  { t := s.t, countdown := s.countdown, bufpos := 0, ring := [],
    host := s.host ++ s.ring.take s.bufpos }

/-- Iterated ticks. -/
def tickN (period : Int) (sig : Nat → α) (B : Nat) (s : ProbeState α) : ProbeState α :=
  (tick period sig)^[B] s

/-- Observational equivalence of probe-row states: same tick count
and countdown, consistent buffer bookkeeping (bufpos counts the
buffered samples), and the same total sample sequence, drained plus
still buffered. -/
def ObsEq (s1 s2 : ProbeState α) : Prop :=
  s1.t = s2.t ∧ s1.countdown = s2.countdown ∧
    s1.bufpos = s1.ring.length ∧ s2.bufpos = s2.ring.length ∧
    s1.host ++ s1.ring = s2.host ++ s2.ring

/-- run_steps (sim_ocl.py lines 266-283), effect on one probe row:
while N remains, run B = min N maxB ticks, drain, subtract B.  The
code computes maxB = n_prealloc * min(periods); if that value were 0
the Python loop would never terminate, so the model clamps the batch
bound to at least 1 (the theorems below all assume 1 <= maxB, where
the model and the code agree). -/
def runSteps (period : Int) (sig : Nat → α) (maxB : Nat) : Nat → ProbeState α → ProbeState α
  | 0, s => s
  | N + 1, s =>
    let B := min (N + 1) (max maxB 1)
    runSteps period sig maxB (N + 1 - B) (drain (tickN period sig B s))
  termination_by N => N
  decreasing_by omega

/-- The batch sizes chosen by the run_steps loop, in order. -/
def runBatches (maxB : Nat) : Nat → List Nat
  | 0 => []
  | N + 1 =>
    let B := min (N + 1) (max maxB 1)
    B :: runBatches maxB (N + 1 - B)
  termination_by N => N
  decreasing_by omega

/-- Python min over a nonempty list of periods (sim_ocl.py line 189
computes n_prealloc * min(periods)); 0 for an empty list. -/
def minPeriod : List Nat → Nat
  | [] => 0
  | a :: rest => rest.foldl min a

/-! ### LIF neuron update (plan_lif, clra_nonlinearities.py lines 165-210)

The generated kernel runs the following text once per element, with
dt below standing for the sub-step size sub_dt = dt/upsample and
dt_inv for its inverse (textconf dt=dt/upsample, dt_inv=upsample/dt):

  spiked = 0;
  repeat upsample times:
    dV = (dt / tau) * (j - v);
    v += dV;
    if (v < 0 || w > 2*dt) v = 0;
    else if (w > dt) v *= 1.0 - (w - dt) * dt_inv;
    if (v > 1) { overshoot = dt * (v - 1) / dV;
                 w = ref - overshoot + dt; v = 0; spiked = 1; }
    else { w -= dt; }
  ov = v; ow = w; os = spiked ? 1 : 0;
-/

/-- The refractory-suppression stage of one LIF sub-step (the branch
pair    if (v < 0 || w > 2*dt) v = 0;  else if (w > dt) v *= ... ). -/
def lifClamp (dt v w : ℚ) : ℚ :=
  if v < 0 ∨ 2 * dt < w then 0
  else if dt < w then v * (1 - (w - dt) * (1 / dt))
  else v

/-- One LIF sub-step, acting on (v, w, spiked). -/
def lifSubStep (dt tau ref j : ℚ) (s : ℚ × ℚ × Bool) : ℚ × ℚ × Bool :=
  let v := s.1
  let w := s.2.1
  let spiked := s.2.2
  let dV := (dt / tau) * (j - v)
  let v1 := v + dV
  let v2 := lifClamp dt v1 w
  if 1 < v2 then
    (0, ref - dt * (v2 - 1) / dV + dt, true)
  else
    (v2, w - dt, spiked)

/-- Whether a single sub-step taken from voltage v and refractory
state w produces a spike (the fresh spike state of that sub-step,
independent of the running spiked flag). -/
def lifSubSpikes (dt tau ref j : ℚ) (vw : ℚ × ℚ) : Bool :=
  (lifSubStep dt tau ref j (vw.1, vw.2, false)).2.2

/-- The (v, w) part of one sub-step. -/
def lifSubVW (dt tau ref j : ℚ) (vw : ℚ × ℚ) : ℚ × ℚ :=
  ((lifSubStep dt tau ref j (vw.1, vw.2, false)).1,
   (lifSubStep dt tau ref j (vw.1, vw.2, false)).2.1)

/-- The whole per-element LIF kernel body: upsample sub-steps of size
dt/upsample, then write back (ov, ow, os). -/
def lifStep (dt tau ref j : ℚ) (upsample : Nat) (v w : ℚ) : ℚ × ℚ × ℚ :=
  let sub := dt / (upsample : ℚ)
  let r := (lifSubStep sub tau ref j)^[upsample] (v, w, false)
  (r.1, r.2.1, if r.2.2 then 1 else 0)

/-! Claim-side reference version of the sub-step (modelled from the
wording of claim C2 / spec section 4.2, to be compared with the
lifSubStep translated from the code): integrate; if W > 2*sub_dt
force V to 0; else if sub_dt < W <= 2*sub_dt scale V by
1 - (W - sub_dt)/sub_dt; then threshold. -/
def lifSubStepClaim (dt tau ref j : ℚ) (s : ℚ × ℚ × Bool) : ℚ × ℚ × Bool :=
  let v := s.1
  let w := s.2.1
  let spiked := s.2.2
  let dV := (dt / tau) * (j - v)
  let v1 := v + dV
  let v2 :=
    if 2 * dt < w then 0
    else if dt < w ∧ w ≤ 2 * dt then v1 * (1 - (w - dt) / dt)
    else v1
  if 1 < v2 then
    (0, ref - dt * (v2 - 1) / dV + dt, true)
  else
    (v2, w - dt, spiked)

/-- Amended reference version: same as lifSubStepClaim but with the
force-to-zero condition also triggered by a negative integrated
voltage, as the generated kernel does. -/
def lifSubStepAmended (dt tau ref j : ℚ) (s : ℚ × ℚ × Bool) : ℚ × ℚ × Bool :=
  let v := s.1
  let w := s.2.1
  let spiked := s.2.2
  let dV := (dt / tau) * (j - v)
  let v1 := v + dV
  let v2 :=
    if v1 < 0 ∨ 2 * dt < w then 0
    else if dt < w ∧ w ≤ 2 * dt then v1 * (1 - (w - dt) / dt)
    else v1
  if 1 < v2 then
    (0, ref - dt * (v2 - 1) / dV + dt, true)
  else
    (v2, w - dt, spiked)

/-! ### The generic kernel planner (_plan_template, clra_nonlinearities.py lines 225-476)

Inputs and outputs are ragged arrays of vectors sharing the row
lengths of the base input; parameters are ragged arrays whose rows
are either scalars (length 1, broadcast) or full vectors.  The
per-element computation (core_text plus declares) is modelled as a
pure function from the list of input values and the list of
parameter values to the list of output values; compile-time constant
parameters are simply captured by that function. -/

/-- A read-only ragged operand: per-row start offsets into one flat
buffer (CLRaggedArray view: starts and buf). -/
structure RaggedRO (α : Type) where
  starts : List Nat
  buf : List α

/-- A parameter operand additionally carries per-row lengths
(shape0s), consulted by the broadcast protocol. -/
structure ParamRA (α : Type) where
  starts : List Nat
  shape0s : List Nat
  buf : List α

/-- One write performed by a kernel: the logical row n and in-row
offset m it targets, the flat-buffer addresses (one per output
operand, equal to that output row start plus m), and the values
written (one per output operand). -/
structure WriteRec (α : Type) where
  n : Nat
  m : Nat
  addrs : List Nat
  vals : List α
  deriving DecidableEq, Repr

/-- Everything a _plan_template invocation closes over. -/
structure KernelCtx (α : Type) where
  d : α
  core : List α → List α → List α
  ins : List (RaggedRO α)
  outStarts : List (List Nat)
  ps : List (ParamRA α)
  lengths : List Nat

namespace KernelCtx

variable {α : Type} (c : KernelCtx α)

def N : Nat := c.lengths.length

def total : Nat := c.lengths.sum

def len (n : Nat) : Nat := c.lengths.getD n 0

def inStart (k n : Nat) : Nat := (c.ins.getD k ⟨[], []⟩).starts.getD n 0

def inBufAt (k i : Nat) : α := (c.ins.getD k ⟨[], []⟩).buf.getD i c.d

def outStart (k n : Nat) : Nat := (c.outStarts.getD k []).getD n 0

def pStart (k n : Nat) : Nat := (c.ps.getD k ⟨[], [], []⟩).starts.getD n 0

def pShape (k n : Nat) : Nat := (c.ps.getD k ⟨[], [], []⟩).shape0s.getD n 0

def pBufAt (k i : Nat) : α := (c.ps.getD k ⟨[], [], []⟩).buf.getD i c.d

/-- Value of input k seen by the computation of element (n, m). -/
def readIn (k n m : Nat) : α := c.inBufAt k (c.inStart k n + m)

/-- Value of parameter k seen by the computation of element (n, m):
the broadcast protocol of the generated kernels reads per element for
a vector row (shape0 > 1) and the row scalar otherwise. -/
def readParam (k n m : Nat) : α :=
  if 1 < c.pShape k n then c.pBufAt k (c.pStart k n + m) else c.pBufAt k (c.pStart k n)

/-- The values the fragment computes for element (n, m). -/
def elemVals (n m : Nat) : List α :=
  c.core ((List.range c.ins.length).map fun k => c.readIn k n m)
    ((List.range c.ps.length).map fun k => c.readParam k n m)

/-- Flat-buffer addresses of element (n, m) in the output operands. -/
def outAddr (n m : Nat) : List Nat :=
  (List.range c.outStarts.length).map fun k => c.outStart k n + m

/-- The write any regime should perform for element (n, m). -/
def elemRec (n m : Nat) : WriteRec α :=
  ⟨n, m, c.outAddr n m, c.elemVals n m⟩

/-! #### Block regime (n_elements == 0, lines 402-456)

Grid of size (max row length) x N; cell (m, n) returns immediately
when m >= lengths[n] and otherwise computes element m of row n,
reading parameters through the compile-time broadcast conditional
(shape0s[n] > 1 ? per-element : row scalar). -/

/-- Dimension-0 grid size of the block regime: np.max(base.shape0s). -/
def gsize0 : Nat := c.lengths.foldr max 0

/-- All writes of a block-regime launch (row-major order; the grid
cells are independent, each element is written by exactly one cell,
so the list order is immaterial). -/
def blockWrites : List (WriteRec α) :=
  (List.range c.N).flatMap fun n =>
    (List.range c.gsize0).filterMap fun m =>
      if m < c.len n then some (c.elemRec n m) else none

/-! #### Flattened regime (n_elements >= 1, lines 305-401)

ceil(total/n_elements) work-items; work-item gid starts at logical
element gid*n_elements located by the prefix walk
  while (m >= lengths[n]) { m -= lengths[n]; n++; }
and processes n_elements consecutive logical elements, advancing one
row at a time at row boundaries. -/

/-- The prefix walk of the flattened kernel: consume whole rows while
the remaining offset is at least the row length.  Returns the row
index reached (equal to the list length when the offset is past the
end) and the offset within that row. -/
def walk : List Nat → Nat → Nat × Nat
  | [], m => (0, m)
  | L :: Ls, m =>
    if L ≤ m then
      let r := walk Ls (m - L)
      (r.1 + 1, r.2)
    else (0, m)

/-- Per-work-item mutable state of the flattened kernel: the current
row n and in-row offset m, one cursor per input, output and parameter
operand (an absolute index into that operand buffer, the cur_x
pointers of the kernel), the per-parameter is-vector flags, and the
per-parameter value registers. -/
structure FlatState (α : Type) where
  n : Nat
  m : Nat
  curIn : Nat → Nat
  curOut : Nat → Nat
  curP : Nat → Nat
  pIsVec : Nat → Bool
  pReg : Nat → α

/-- State at the top of the unrolled loop for work-item gid, after the
prefix walk has produced row n, offset m:
  cur_x = in_x + x_starts[n] + m        (inputs and outputs)
  cur_p = in_p + p_starts[n]; p_isvector = p_shape0s[n] > 1;
  if (p_isvector) cur_p += m;
Parameter registers are uninitialized (default) until iteration 0
loads them. -/
def initState (n m : Nat) : FlatState α :=
  { n := n, m := m,
    curIn := fun k => c.inStart k n + m,
    curOut := fun k => c.outStart k n + m,
    curP := fun k => c.pStart k n + (if 1 < c.pShape k n then m else 0),
    pIsVec := fun k => decide (1 < c.pShape k n),
    pReg := fun _ => c.d }

/-- Register loads at the top of loop iteration ii:
  if ((ii == 0) || p_isvector) p = *cur_p;   for every parameter. -/
def loadRegs (first : Bool) (s : FlatState α) : FlatState α :=
  { s with pReg := fun k => if first || s.pIsVec k then c.pBufAt k (s.curP k) else s.pReg k }

/-- The write performed in one loop iteration: inputs are re-read
from their cursors, parameters are taken from their registers, and
each output value is stored at its cursor. -/
def emit (s : FlatState α) : WriteRec α :=
  ⟨s.n, s.m, (List.range c.outStarts.length).map s.curOut,
    c.core ((List.range c.ins.length).map fun k => c.inBufAt k (s.curIn k))
      ((List.range c.ps.length).map s.pReg)⟩

/-- The end-of-iteration bookkeeping of the flattened kernel:
  m++;
  if (m >= lengths[n]) { n++; m = 0; if (n >= N) return;
      cur_x = in_x + x_starts[n];              (all operands)
      p_isvector = p_shape0s[n] > 1;
      if (!p_isvector) p = *cur_p; }
  else { cur_in++; cur_out++; if (p_isvector) cur_p++; }
Returns none when the kernel returns. -/
def advance (s : FlatState α) : Option (FlatState α) :=
  let m1 := s.m + 1
  if c.len s.n ≤ m1 then
    let n1 := s.n + 1
    if c.N ≤ n1 then none
    else
      let curP1 : Nat → Nat := fun k => c.pStart k n1
      let isv1 : Nat → Bool := fun k => decide (1 < c.pShape k n1)
      some { n := n1, m := 0,
             curIn := fun k => c.inStart k n1,
             curOut := fun k => c.outStart k n1,
             curP := curP1,
             pIsVec := isv1,
             pReg := fun k => if isv1 k then s.pReg k else c.pBufAt k (curP1 k) }
  else
    some
      { s with
        m := m1,
        curIn := fun k => s.curIn k + 1,
        curOut := fun k => s.curOut k + 1,
        curP := fun k => if s.pIsVec k then s.curP k + 1 else s.curP k }

/-- The unrolled element loop: fuel counts the remaining iterations
(initially n_elements).  On the last iteration the kernel skips the
bookkeeping; computing advance and discarding its result is
observationally the same. -/
def chunkLoop : Nat → Bool → FlatState α → List (WriteRec α)
  | 0, _, _ => []
  | f + 1, first, s =>
    let s1 := c.loadRegs first s
    c.emit s1 ::
      (match c.advance s1 with
       | none => []
       | some s2 => chunkLoop f false s2)

/-- All writes of work-item gid: prefix walk from gid * n_elements,
early return when the walk runs past the last row, then the unrolled
loop. -/
def chunkWrites (ne gid : Nat) : List (WriteRec α) :=
  let w := walk c.lengths (gid * ne)
  if c.N ≤ w.1 then [] else c.chunkLoop ne true (c.initState w.1 w.2)

/-- Grid size of the flattened regime: ceil(total / n_elements). -/
def flatGsize (ne : Nat) : Nat := (c.total + ne - 1) / ne

/-- All writes of a flattened-regime launch. -/
def flatWrites (ne : Nat) : List (WriteRec α) :=
  (List.range (c.flatGsize ne)).flatMap (c.chunkWrites ne)

/-- Parameter contribution in the words of claim C4 (modelled from
the spec: a parameter row of length 1 contributes its single value to
every element of its row; a row of length equal to the base row
length contributes its element i to element i). -/
def specParamRead (k n m : Nat) : α :=
  if c.pShape k n = 1 then c.pBufAt k (c.pStart k n) else c.pBufAt k (c.pStart k n + m)

/-- The element values with parameters read as claim C4 words it. -/
def specElemVals (n m : Nat) : List α :=
  c.core ((List.range c.ins.length).map fun k => c.readIn k n m)
    ((List.range c.ps.length).map fun k => c.specParamRead k n m)

/-- The write for the logical element at global flattened position
pos (row-major across rows). -/
def canonRec (pos : Nat) : WriteRec α :=
  let w := walk c.lengths pos
  c.elemRec w.1 w.2

/-- The canonical row-major write sequence for k consecutive logical
elements starting at global position pos. -/
def canonTrace (pos k : Nat) : List (WriteRec α) :=
  (List.range k).map fun i => c.canonRec (pos + i)

end KernelCtx

/-- The writes a launch makes to logical element (n, m): the list of
(addresses, values) pairs of its records targeting that element. -/
def writesTo (w : List (WriteRec α)) (n m : Nat) : List (List Nat × List α) :=
  (w.filter fun r => r.n == n && r.m == m).map fun r => (r.addrs, r.vals)

/-! ### Parameter-shape validation (clra_nonlinearities.py lines 283-294)

For every variable parameter and every row i the planner asserts
  v.shape0s[i] == base.shape0s[i] or v.shape0s[i] == 1
with message "%s.shape0s[%d] must be 1 or %d (not %d)"
             % (vname, i, base.shape0s[i], v.shape0s[i]);
the first failing (parameter, row) raises, and no plan is built. -/

/-- The assertion message for a bad parameter row. -/
def shapeMsg (vname : String) (i expected actual : Nat) : String :=
  vname ++ ".shape0s[" ++ toString i ++ "] must be 1 or " ++ toString expected ++
    " (not " ++ toString actual ++ ")"

/-- Check rows i, i+1, ... of one parameter against the base lengths. -/
def checkParamFrom (vname : String) (base shape : List Nat) : Nat → Except String Unit
  | i =>
    if h : i < base.length then
      if shape.getD i 0 = base.getD i 0 ∨ shape.getD i 0 = 1 then
        checkParamFrom vname base shape (i + 1)
      else
        .error (shapeMsg vname i (base.getD i 0) (shape.getD i 0))
    else
      .ok ()
  termination_by i => base.length - i
  decreasing_by omega

/-- Validate one parameter (all rows, in order). -/
def checkParam (vname : String) (base shape : List Nat) : Except String Unit :=
  checkParamFrom vname base shape 0

/-- Validate all variable parameters, in order. -/
def checkParams (base : List Nat) : List (String × List Nat) → Except String Unit
  | [] => .ok ()
  | (vname, shape) :: rest => do
    checkParam vname base shape
    checkParams base rest

/-- Plan construction: validate the parameter shapes, then build the
kernel of the regime selected by n_elements.  The produced plan is
identified with the collection of writes its kernel performs. -/
def buildPlan (c : KernelCtx α) (pnames : List String) (ne : Nat) :
    Except String (List (WriteRec α)) := do
  checkParams c.lengths (pnames.zip (c.ps.map ParamRA.shape0s))
  pure (if ne = 0 then c.blockWrites else c.flatWrites ne)

/-! ### LIF rate rule (plan_lif_rate, clra_nonlinearities.py lines 212-223)

Core text (with dt interpolated as a constant):
    j = max(j - 1, 0.0f);
    r = dt / (ref + tau * log1p(1.0/j));
run through _plan_template with inputs {j}, outputs {r} and
parameters {tau, ref}.  The transcendental builtin is modelled over
the reals. -/

noncomputable def log1p (x : ℝ) : ℝ := Real.log (1 + x)

/-- The per-element value computed by the generated lif_rate kernel. -/
noncomputable def lifRateElem (dt tau ref j : ℝ) : ℝ :=
  let j1 := max (j - 1) 0
  dt / (ref + tau * log1p (1 / j1))

/-- The lif_rate fragment as a core function for the planner, with
parameter order [tau, ref]. -/
noncomputable def lifRateCore (dt : ℝ) : List ℝ → List ℝ → List ℝ :=
  fun ivs pvs => [lifRateElem dt (pvs.getD 0 0) (pvs.getD 1 0) (ivs.getD 0 0)]

/-- The steady-state rate formula asserted by claim C3 (modelled from
the spec wording: rate = 1 / (ref + tau*log1p(1/max(J-1,0)))). -/
noncomputable def lifRateElemClaim (tau ref j : ℝ) : ℝ :=
  1 / (ref + tau * log1p (1 / max (j - 1) 0))

/-! ### Concrete planner instances used for counterexamples and
witness evaluations -/

/-- A batch with a zero-length middle row: lengths [1, 0, 1], one
input, identity fragment, no parameters.  Row 1 is empty, and its
start offsets (5 in the input, 7 in the output) differ from row 2's,
so a phantom access to it touches different addresses than row 2. -/
def ctxZeroRow : KernelCtx Nat :=
  { d := 0, core := fun ivs _ => ivs,
    ins := [⟨[0, 5, 1], [10, 20]⟩],
    outStarts := [[0, 7, 1]],
    ps := [],
    lengths := [1, 0, 1] }

/-- A healthy batch: lengths [2, 1], one input, one parameter whose
rows are scalars (lengths [1, 1]). -/
def ctxTwoRows : KernelCtx Nat :=
  { d := 0, core := fun ivs pvs => [ivs.getD 0 0 * 100 + pvs.getD 0 0],
    ins := [⟨[0, 2], [3, 4, 5]⟩],
    outStarts := [[0, 2]],
    ps := [⟨[0, 1], [1, 1], [7, 8]⟩],
    lengths := [2, 1] }

/-- A batch whose single parameter has an illegal row length (2 where
the base row length is 3). -/
def ctxBadParam : KernelCtx Nat :=
  { d := 0, core := fun ivs _ => ivs,
    ins := [⟨[0], [1, 2, 3]⟩],
    outStarts := [[0]],
    ps := [⟨[0], [2], [7, 8]⟩],
    lengths := [3] }

/-- A one-row, one-element lif_rate instance: dt = 2, input J = [5],
parameter rows tau = [0] and ref = [1]. -/
noncomputable def lifRateCtxC3 : KernelCtx ℝ :=
  { d := 0, core := lifRateCore 2,
    ins := [⟨[0], [5]⟩],
    outStarts := [[0]],
    ps := [⟨[0], [1], [0]⟩, ⟨[0], [1], [1]⟩],
    lengths := [1] }

/-! ### Properties of the prefix walk -/

namespace KernelCtx

theorem walk_nil (pos : Nat) : walk [] pos = (0, pos) := rfl

theorem walk_cons_lt {A pos : Nat} (L : List Nat) (h : pos < A) :
    walk (A :: L) pos = (0, pos) := by
  simp [walk, Nat.not_le.mpr h]

theorem walk_cons_ge {A pos : Nat} (L : List Nat) (h : A ≤ pos) :
    walk (A :: L) pos = ((walk L (pos - A)).1 + 1, (walk L (pos - A)).2) := by
  simp [walk, h]

/-- For an in-range position the walk lands on a row shorter than its
result offset claims, and the prefix sum of the rows it consumed plus
the final offset reconstructs the position. -/
theorem walk_spec :
    ∀ (L : List Nat) (pos : Nat), pos < L.sum →
      (walk L pos).1 < L.length ∧ (walk L pos).2 < L.getD (walk L pos).1 0 ∧
        (L.take (walk L pos).1).sum + (walk L pos).2 = pos := by
  intro L
  induction L with
  | nil => intro pos h; simp at h
  | cons A T ih =>
    intro pos h
    by_cases hA : A ≤ pos
    · have hT : pos - A < T.sum := by
        have := List.sum_cons (a := A) (l := T)
        omega
      obtain ⟨h1, h2, h3⟩ := ih (pos - A) hT
      rw [walk_cons_ge T hA]
      refine ⟨by simpa using h1, by simpa using h2, ?_⟩
      simp only [List.take_succ_cons, List.sum_cons]
      omega
    · rw [walk_cons_lt T (Nat.not_le.mp hA)]
      exact ⟨by simp, by simpa using Nat.not_le.mp hA, by simp⟩

/-- The walk inverts the row-major position map: starting from the
position of element (n, m) it reaches exactly row n, offset m. -/
theorem walk_posOf :
    ∀ (L : List Nat) (n m : Nat), n < L.length → m < L.getD n 0 →
      walk L ((L.take n).sum + m) = (n, m) := by
  intro L
  induction L with
  | nil => intro n m h; simp at h
  | cons A T ih =>
    intro n m hn hm
    match n with
    | 0 =>
      simp only [List.take_zero, List.sum_nil, Nat.zero_add]
      exact walk_cons_lt T (by simpa using hm)
    | n' + 1 =>
      have hn' : n' < T.length := by simpa using hn
      have hm' : m < T.getD n' 0 := by simpa using hm
      have hA : A ≤ (List.take (n' + 1) (A :: T)).sum + m := by
        simp only [List.take_succ_cons, List.sum_cons]
        omega
      rw [walk_cons_ge T hA]
      have hsub : (List.take (n' + 1) (A :: T)).sum + m - A = (T.take n').sum + m := by
        simp only [List.take_succ_cons, List.sum_cons]
        omega
      rw [hsub, ih n' m hn' hm']

/-- Past the end of the data the walk consumes every row. -/
theorem walk_ge :
    ∀ (L : List Nat) (pos : Nat), L.sum ≤ pos → (walk L pos).1 = L.length := by
  intro L
  induction L with
  | nil => intro pos _; rfl
  | cons A T ih =>
    intro pos h
    simp only [List.sum_cons] at h
    have hA : A ≤ pos := by omega
    rw [walk_cons_ge T hA]
    simp [ih (pos - A) (by omega)]

/-- Prefix sums grow by the row length. -/
theorem sum_take_succ (L : List Nat) (n : Nat) (h : n < L.length) :
    (L.take (n + 1)).sum = (L.take n).sum + L.getD n 0 := by
  rw [List.take_succ, List.sum_append, List.getElem?_eq_getElem h]
  simp [List.getD_eq_getElem?_getD, List.getElem?_eq_getElem h]

theorem sum_take_le (L : List Nat) (n : Nat) : (L.take n).sum ≤ L.sum := by
  conv_rhs => rw [← List.take_append_drop n L]
  rw [List.sum_append]
  omega

/-- The row-major position of a valid element is in range. -/
theorem posOf_lt (L : List Nat) (n m : Nat) (hn : n < L.length) (hm : m < L.getD n 0) :
    (L.take n).sum + m < L.sum := by
  have h1 := sum_take_succ L n hn
  have h2 := sum_take_le L (n + 1)
  omega

/-- A row length never exceeds the block-regime grid height. -/
theorem getD_le_foldr_max :
    ∀ (L : List Nat) (n : Nat), n < L.length → L.getD n 0 ≤ L.foldr max 0 := by
  intro L
  induction L with
  | nil => intro n h; simp at h
  | cons A T ih =>
    intro n hn
    match n with
    | 0 => simp [List.getD]
    | n' + 1 =>
      have := ih n' (by simpa using hn)
      simp only [List.foldr_cons]
      calc (A :: T).getD (n' + 1) 0 = T.getD n' 0 := by simp [List.getD]
        _ ≤ T.foldr max 0 := this
        _ ≤ max A (T.foldr max 0) := Nat.le_max_right _ _

/-- All-hits filterMap over a long-enough range is a map. -/
theorem filterMap_range_if {β : Type} (A : Nat) (F : Nat → β) :
    ∀ g0, A ≤ g0 →
      ((List.range g0).filterMap fun m => if m < A then some (F m) else none) =
        (List.range A).map F := by
  intro g0
  induction g0 with
  | zero =>
    intro hg
    have : A = 0 := by omega
    simp [this]
  | succ g ih =>
    intro hg
    rw [List.range_succ, List.filterMap_append]
    by_cases hA : A ≤ g
    · rw [ih hA]
      have : ¬ g < A := by omega
      simp [this]
    · have hAg : A = g + 1 := by omega
      subst hAg
      have h1 : ∀ m ∈ List.range g, (if m < g + 1 then some (F m) else none) = some (F m) := by
        intro m hm
        have := List.mem_range.mp hm
        have hlt : m < g + 1 := by omega
        simp [hlt]
      have ihg : ((List.range g).filterMap fun m =>
          if m < g + 1 then some (F m) else none) = (List.range g).map F := by
        rw [List.filterMap_congr h1, show (fun m => some (F m)) = some ∘ F from rfl,
          List.filterMap_eq_map]
      rw [ihg, List.range_succ, List.map_append]
      have hlt : g < g + 1 := by omega
      simp [hlt]

/-- Block-regime row-by-row enumeration equals row-major enumeration
of all positions decoded through the walk. -/
theorem block_eq_canon {β : Type} :
    ∀ (L : List Nat) (g0 : Nat) (F : Nat → Nat → β),
      (∀ n, n < L.length → L.getD n 0 ≤ g0) →
      ((List.range L.length).flatMap fun n =>
        (List.range g0).filterMap fun m => if m < L.getD n 0 then some (F n m) else none) =
      (List.range L.sum).map fun pos => F (walk L pos).1 (walk L pos).2 := by
  intro L
  induction L with
  | nil => intro g0 F _; rfl
  | cons A T ih =>
    intro g0 F hg
    have hA : A ≤ g0 := by simpa using hg 0 (by simp)
    have hrow0 : ((List.range g0).filterMap fun m =>
        if m < (A :: T).getD 0 0 then some (F 0 m) else none) = (List.range A).map (F 0) := by
      simpa using filterMap_range_if A (F 0) g0 hA
    calc ((List.range (A :: T).length).flatMap fun n =>
            (List.range g0).filterMap fun m =>
              if m < (A :: T).getD n 0 then some (F n m) else none)
        = ((List.range g0).filterMap fun m =>
            if m < (A :: T).getD 0 0 then some (F 0 m) else none) ++
          ((List.range T.length).flatMap fun n =>
            (List.range g0).filterMap fun m =>
              if m < T.getD n 0 then some (F (n + 1) m) else none) := by
          simp only [List.length_cons, List.range_succ_eq_map, List.flatMap_cons,
            List.flatMap_map]
          rfl
      _ = (List.range A).map (F 0) ++
          (List.range T.sum).map (fun pos => F ((walk T pos).1 + 1) (walk T pos).2) := by
          rw [hrow0, ih g0 (fun n m => F (n + 1) m)
            (fun n hn => by simpa using hg (n + 1) (by simpa using hn))]
      _ = (List.range (A :: T).sum).map fun pos => F (walk (A :: T) pos).1 (walk (A :: T) pos).2 := by
          have hsum : (A :: T).sum = A + T.sum := by simp
          rw [hsum, List.range_add, List.map_append, List.map_map]
          congr 1
          · apply List.map_congr_left
            intro pos hpos
            have : pos < A := List.mem_range.mp hpos
            rw [walk_cons_lt T this]
          · apply List.map_congr_left
            intro pos _
            have : A ≤ A + pos := by omega
            simp only [Function.comp_apply]
            rw [walk_cons_ge T this]
            simp

/-! ### Invariants of the flattened-regime state machine -/

variable {α : Type} (c : KernelCtx α)

/-- Cursor coherence: the state sits at element (n, m), every input
and output cursor is the address of element (n, m) of its operand,
each is-vector flag reflects the shape of the current row, and each
parameter cursor is at its row scalar (scalar row) or at element m
(vector row). -/
def GoodCur (n m : Nat) (s : FlatState α) : Prop :=
  s.n = n ∧ s.m = m ∧
    (∀ k, s.curIn k = c.inStart k n + m) ∧
    (∀ k, s.curOut k = c.outStart k n + m) ∧
    (∀ k, s.pIsVec k = decide (1 < c.pShape k n)) ∧
    (∀ k, s.curP k = c.pStart k n + if 1 < c.pShape k n then m else 0)

/-- Register coherence for scalar-broadcast parameters: the register
holds the scalar of the current row (established at iteration 0 and
re-established at each row transition). -/
def GoodReg (n : Nat) (s : FlatState α) : Prop :=
  ∀ k, ¬ 1 < c.pShape k n → s.pReg k = c.pBufAt k (c.pStart k n)

/-- State after the register-load phase of an iteration: cursors
coherent and every parameter register holds the broadcast-correct
value for element (n, m). -/
def Loaded (n m : Nat) (s : FlatState α) : Prop :=
  c.GoodCur n m s ∧ ∀ k, s.pReg k = c.readParam k n m

theorem initState_goodCur (n m : Nat) : c.GoodCur n m (c.initState n m) :=
  ⟨rfl, rfl, fun _ => rfl, fun _ => rfl, fun _ => rfl, fun _ => rfl⟩

theorem loadRegs_true (n m : Nat) (s : FlatState α) (h : c.GoodCur n m s) :
    c.Loaded n m (c.loadRegs true s) := by
  obtain ⟨hn, hm, hin, hout, hvec, hp⟩ := h
  refine ⟨⟨hn, hm, hin, hout, hvec, hp⟩, fun k => ?_⟩
  simp only [loadRegs, Bool.true_or, readParam, hp k]
  by_cases hk : 1 < c.pShape k n
  · simp [hk]
  · simp [hk]

theorem loadRegs_false (n m : Nat) (s : FlatState α) (h : c.GoodCur n m s)
    (hr : c.GoodReg n s) : c.Loaded n m (c.loadRegs false s) := by
  obtain ⟨hn, hm, hin, hout, hvec, hp⟩ := h
  refine ⟨⟨hn, hm, hin, hout, hvec, hp⟩, fun k => ?_⟩
  simp only [loadRegs, Bool.false_or, readParam, hvec k, hp k]
  by_cases hk : 1 < c.pShape k n
  · simp [hk]
  · simp [hk, hr k hk]

theorem emit_loaded (n m : Nat) (s : FlatState α) (h : c.Loaded n m s) :
    c.emit s = c.elemRec n m := by
  obtain ⟨⟨hn, hm, hin, hout, _, _⟩, hreg⟩ := h
  have e1 : s.curOut = fun k => c.outStart k n + m := funext hout
  have e2 : (fun k => c.inBufAt k (s.curIn k)) = fun k => c.readIn k n m :=
    funext fun k => by rw [hin k]; rfl
  have e3 : s.pReg = fun k => c.readParam k n m := funext hreg
  rw [emit, elemRec, hn, hm, e1, e2, e3]
  rfl

theorem advance_cont (n m : Nat) (s : FlatState α) (h : c.Loaded n m s)
    (hm1 : m + 1 < c.len n) :
    ∃ s2, c.advance s = some s2 ∧ c.GoodCur n (m + 1) s2 ∧ c.GoodReg n s2 := by
  obtain ⟨⟨hn, hm, hin, hout, hvec, hp⟩, hreg⟩ := h
  have hcond : ¬ c.len s.n ≤ s.m + 1 := by rw [hn, hm]; omega
  refine ⟨{ s with
            m := s.m + 1,
            curIn := fun k => s.curIn k + 1,
            curOut := fun k => s.curOut k + 1,
            curP := fun k => if s.pIsVec k then s.curP k + 1 else s.curP k }, ?_, ?_, ?_⟩
  · rw [advance]
    simp only [if_neg hcond]
  · refine ⟨hn, by simp [hm], fun k => by simp [hin k, Nat.add_assoc],
      fun k => by simp [hout k, Nat.add_assoc], fun k => hvec k, fun k => ?_⟩
    simp only [hvec k, hp k]
    by_cases hk : 1 < c.pShape k n
    · simp [hk, Nat.add_assoc]
    · simp [hk]
  · intro k hk
    show s.pReg k = _
    rw [hreg k]
    simp [readParam, hk]

theorem advance_row (n m : Nat) (s : FlatState α) (h : c.Loaded n m s)
    (hm1 : c.len n ≤ m + 1) (hn1 : n + 1 < c.N) :
    ∃ s2, c.advance s = some s2 ∧ c.GoodCur (n + 1) 0 s2 ∧ c.GoodReg (n + 1) s2 := by
  obtain ⟨⟨hn, hm, hin, hout, hvec, hp⟩, hreg⟩ := h
  have hcond : c.len s.n ≤ s.m + 1 := by rw [hn, hm]; exact hm1
  have hcond2 : ¬ c.N ≤ s.n + 1 := by rw [hn]; omega
  refine ⟨{ n := s.n + 1,
            m := 0,
            curIn := fun k => c.inStart k (s.n + 1),
            curOut := fun k => c.outStart k (s.n + 1),
            curP := fun k => c.pStart k (s.n + 1),
            pIsVec := fun k => decide (1 < c.pShape k (s.n + 1)),
            pReg := fun k => if decide (1 < c.pShape k (s.n + 1)) then s.pReg k
              else c.pBufAt k (c.pStart k (s.n + 1)) }, ?_, ?_, ?_⟩
  · rw [advance]
    simp only [if_pos hcond, if_neg hcond2]
  · refine ⟨by simp [hn], rfl, fun k => by simp [hn], fun k => by simp [hn],
      fun k => by simp [hn], fun k => ?_⟩
    simp only [hn, ite_self, Nat.add_zero]
  · intro k hk
    have hdk : (decide (1 < c.pShape k (s.n + 1))) = false := by
      rw [hn]; simpa using hk
    simp only [hdk, hn]
    simp
    intro hcontra
    exact absurd hcontra hk

theorem advance_none (n m : Nat) (s : FlatState α) (h : c.GoodCur n m s)
    (hm1 : c.len n ≤ m + 1) (hn1 : c.N ≤ n + 1) : c.advance s = none := by
  obtain ⟨hn, hm, _, _, _, _⟩ := h
  have hcond : c.len s.n ≤ s.m + 1 := by rw [hn, hm]; exact hm1
  have hcond2 : c.N ≤ s.n + 1 := by rw [hn]; exact hn1
  rw [advance]
  simp only [if_pos hcond, if_pos hcond2]

theorem getD_mem (L : List Nat) (i : Nat) (h : i < L.length) : L.getD i 0 ∈ L := by
  rw [List.getD_eq_getElem?_getD, List.getElem?_eq_getElem h]
  exact List.getElem_mem h

theorem chunkLoop_succ (f : Nat) (first : Bool) (s : FlatState α) :
    c.chunkLoop (f + 1) first s =
      c.emit (c.loadRegs first s) ::
        (match c.advance (c.loadRegs first s) with
         | none => []
         | some s2 => c.chunkLoop f false s2) := rfl

theorem loaded_of_first (first : Bool) (n m : Nat) (s : FlatState α)
    (hcur : c.GoodCur n m s) (hreg : first = false → c.GoodReg n s) :
    c.Loaded n m (c.loadRegs first s) := by
  cases first with
  | true => exact c.loadRegs_true n m s hcur
  | false => exact c.loadRegs_false n m s hcur (hreg rfl)

/-- Every write a flattened work-item performs is the canonical write
for the row and offset its state tracks at that iteration: the input
values, parameter registers (including scalar broadcast ones carried
across iterations and reloaded at row transitions) and output
addresses are exactly those of element (r.n, r.m).  Holds for
arbitrary row lengths, including empty rows. -/
theorem chunkLoop_mem :
    ∀ (f : Nat) (first : Bool) (s : FlatState α) (n m : Nat),
      c.GoodCur n m s → (first = false → c.GoodReg n s) →
      n < c.N → (m = 0 ∨ m < c.len n) →
      ∀ r ∈ c.chunkLoop f first s,
        r.n < c.N ∧ (r.m = 0 ∨ r.m < c.len r.n) ∧ r = c.elemRec r.n r.m := by
  intro f
  induction f with
  | zero => intro first s n m _ _ _ _ r hr; simp [chunkLoop] at hr
  | succ f ih =>
    intro first s n m hcur hregs hn hm r hr
    have hload : c.Loaded n m (c.loadRegs first s) := c.loaded_of_first first n m s hcur hregs
    rw [chunkLoop_succ] at hr
    rcases List.mem_cons.mp hr with hr | hr
    · subst hr
      rw [c.emit_loaded n m _ hload]
      exact ⟨hn, hm, rfl⟩
    · by_cases hm1 : m + 1 < c.len n
      · obtain ⟨s2, hadv, hcur2, hreg2⟩ := c.advance_cont n m _ hload hm1
        rw [hadv] at hr
        exact ih false s2 n (m + 1) hcur2 (fun _ => hreg2) hn (Or.inr hm1) r hr
      · have hml : c.len n ≤ m + 1 := by omega
        by_cases hn1 : n + 1 < c.N
        · obtain ⟨s2, hadv, hcur2, hreg2⟩ := c.advance_row n m _ hload hml hn1
          rw [hadv] at hr
          exact ih false s2 (n + 1) 0 hcur2 (fun _ => hreg2) hn1 (Or.inl rfl) r hr
        · rw [c.advance_none n m _ hload.1 hml (by omega)] at hr
          simp at hr

theorem canonTrace_zero (pos : Nat) : c.canonTrace pos 0 = [] := rfl

theorem canonTrace_succ (pos k : Nat) :
    c.canonTrace pos (k + 1) = c.canonRec pos :: c.canonTrace (pos + 1) k := by
  unfold canonTrace
  rw [List.range_succ_eq_map, List.map_cons, List.map_map]
  refine congrArg₂ _ (by simp) ?_
  apply List.map_congr_left
  intro i _
  simp only [Function.comp_apply]
  refine congrArg _ (by omega)

theorem canonTrace_append (pos a b : Nat) :
    c.canonTrace pos (a + b) = c.canonTrace pos a ++ c.canonTrace (pos + a) b := by
  unfold canonTrace
  rw [List.range_add, List.map_append, List.map_map]
  refine congrArg₂ _ rfl ?_
  apply List.map_congr_left
  intro i _
  simp only [Function.comp_apply]
  refine congrArg _ (by omega)

/-- The write of a valid element decoded from its row-major position. -/
theorem canonRec_valid (n m : Nat) (hn : n < c.N) (hm : m < c.len n) :
    c.canonRec ((c.lengths.take n).sum + m) = c.elemRec n m := by
  unfold canonRec
  rw [walk_posOf c.lengths n m hn hm]

/-- Main characterization of the flattened regime when no row is
empty: starting an iteration with coherent state at element (n, m),
the remaining f iterations write exactly the canonical row-major
sequence of logical elements starting at the position of (n, m),
clipped at the total element count. -/
theorem chunkLoop_canon (hL : ∀ x ∈ c.lengths, 1 ≤ x) :
    ∀ (f : Nat) (first : Bool) (s : FlatState α) (n m : Nat),
      c.GoodCur n m s → (first = false → c.GoodReg n s) →
      n < c.N → m < c.len n →
      c.chunkLoop f first s =
        c.canonTrace ((c.lengths.take n).sum + m)
          (min f (c.total - ((c.lengths.take n).sum + m))) := by
  intro f
  induction f with
  | zero => intro first s n m _ _ _ _; simp [chunkLoop, canonTrace]
  | succ f ih =>
    intro first s n m hcur hregs hn hm
    have hload : c.Loaded n m (c.loadRegs first s) := c.loaded_of_first first n m s hcur hregs
    have hpos : (c.lengths.take n).sum + m < c.total := posOf_lt c.lengths n m hn hm
    have hK : min (f + 1) (c.total - ((c.lengths.take n).sum + m)) =
        (min f (c.total - ((c.lengths.take n).sum + m + 1))) + 1 := by omega
    rw [chunkLoop_succ, hK, canonTrace_succ, canonRec_valid c n m hn hm,
      c.emit_loaded n m _ hload]
    refine congrArg _ ?_
    by_cases hm1 : m + 1 < c.len n
    · obtain ⟨s2, hadv, hcur2, hreg2⟩ := c.advance_cont n m _ hload hm1
      rw [hadv]
      show c.chunkLoop f false s2 = _
      rw [ih false s2 n (m + 1) hcur2 (fun _ => hreg2) hn hm1]
      refine congrArg₂ _ (by omega) rfl
    · have hml : m + 1 = c.len n := by omega
      have hml2 : m + 1 = c.lengths.getD n 0 := hml
      by_cases hn1 : n + 1 < c.N
      · obtain ⟨s2, hadv, hcur2, hreg2⟩ := c.advance_row n m _ hload (by omega) hn1
        have hlen1 : 0 < c.len (n + 1) := hL _ (getD_mem c.lengths (n + 1) hn1)
        rw [hadv]
        show c.chunkLoop f false s2 = _
        rw [ih false s2 (n + 1) 0 hcur2 (fun _ => hreg2) hn1 hlen1]
        have hsum : (c.lengths.take (n + 1)).sum + 0 = (c.lengths.take n).sum + m + 1 := by
          rw [sum_take_succ c.lengths n hn]
          omega
        rw [hsum]
      · rw [c.advance_none n m _ hload.1 (by omega) (by omega)]
        have htot : c.total = (c.lengths.take n).sum + m + 1 := by
          have hNn : c.N = n + 1 := by omega
          have : c.total = (c.lengths.take (n + 1)).sum := by
            unfold total
            rw [← hNn, show c.N = c.lengths.length from rfl, List.take_length]
          rw [this, sum_take_succ c.lengths n hn]
          omega
        have : min f (c.total - ((c.lengths.take n).sum + m + 1)) = 0 := by omega
        rw [this, canonTrace_zero]

/-- The writes of flattened work-item gid are the canonical writes of
its chunk of logical positions. -/
theorem chunkWrites_canon (hL : ∀ x ∈ c.lengths, 1 ≤ x) (ne gid : Nat) :
    c.chunkWrites ne gid = c.canonTrace (gid * ne) (min ne (c.total - gid * ne)) := by
  by_cases hpos : gid * ne < c.total
  · obtain ⟨h1, h2, h3⟩ := walk_spec c.lengths (gid * ne) hpos
    unfold chunkWrites
    rw [if_neg (by exact Nat.not_le.mpr h1)]
    rw [c.chunkLoop_canon hL ne true _ _ _ (c.initState_goodCur _ _) (by simp) h1 h2, h3]
  · have h0 : c.total - gid * ne = 0 := by omega
    unfold chunkWrites
    rw [if_pos (by rw [walk_ge c.lengths (gid * ne) (Nat.not_lt.mp hpos)]; exact Nat.le_refl _)]
    rw [h0]
    simp [canonTrace]

theorem canonTrace_glue (a b : Nat) :
    c.canonTrace 0 a ++ c.canonTrace a b = c.canonTrace 0 (a + b) := by
  have h := c.canonTrace_append 0 a b
  rw [Nat.zero_add] at h
  exact h.symm

theorem flat_chunks (ne : Nat) :
    ∀ g, (List.range g).flatMap
        (fun gid => c.canonTrace (gid * ne) (min ne (c.total - gid * ne))) =
      c.canonTrace 0 (min (g * ne) c.total) := by
  intro g
  induction g with
  | zero => simp [canonTrace]
  | succ g ih =>
    rw [List.range_succ, List.flatMap_append, ih]
    simp only [List.flatMap_cons, List.flatMap_nil, List.append_nil]
    by_cases hg : c.total ≤ g * ne
    · have h1 : min (g * ne) c.total = c.total := by omega
      have h2 : c.total - g * ne = 0 := by omega
      have h3 : min ((g + 1) * ne) c.total = c.total := by
        rw [Nat.succ_mul]
        omega
      rw [h1, h2, h3]
      simp [canonTrace]
    · have h1 : min (g * ne) c.total = g * ne := by omega
      rw [h1, canonTrace_glue]
      have h4 : g * ne + min ne (c.total - g * ne) = min ((g + 1) * ne) c.total := by
        rw [Nat.succ_mul]
        omega
      rw [h4]

/-- With no empty rows, a flattened launch writes exactly the
canonical row-major sequence of all logical elements. -/
theorem flatWrites_canon (hL : ∀ x ∈ c.lengths, 1 ≤ x) (ne : Nat) (hne : 1 ≤ ne) :
    c.flatWrites ne = c.canonTrace 0 c.total := by
  unfold flatWrites
  have hcong : ∀ gid ∈ List.range (c.flatGsize ne),
      c.chunkWrites ne gid = c.canonTrace (gid * ne) (min ne (c.total - gid * ne)) :=
    fun gid _ => c.chunkWrites_canon hL ne gid
  calc (List.range (c.flatGsize ne)).flatMap (c.chunkWrites ne)
      = (List.range (c.flatGsize ne)).flatMap
          (fun gid => c.canonTrace (gid * ne) (min ne (c.total - gid * ne))) := by
        induction (List.range (c.flatGsize ne)) with
        | nil => rfl
        | cons a t iht =>
          simp only [List.flatMap_cons]
          rw [c.chunkWrites_canon hL ne a, iht]
    _ = c.canonTrace 0 (min (c.flatGsize ne * ne) c.total) := c.flat_chunks ne _
    _ = c.canonTrace 0 c.total := by
        have hceil : c.total ≤ c.flatGsize ne * ne := by
          unfold flatGsize
          have hd := Nat.div_add_mod (c.total + ne - 1) ne
          have hm := Nat.mod_lt (c.total + ne - 1) (show 0 < ne by omega)
          rw [Nat.mul_comm]
          omega
        rw [Nat.min_eq_right hceil]

/-- The block regime also writes exactly the canonical row-major
sequence (for any row lengths: empty rows contribute no cells). -/
theorem blockWrites_canon : c.blockWrites = c.canonTrace 0 c.total := by
  unfold blockWrites N len
  rw [block_eq_canon c.lengths c.gsize0 c.elemRec
    (fun n hn => getD_le_foldr_max c.lengths n hn)]
  unfold canonTrace canonRec
  apply List.map_congr_left
  intro pos _
  simp

theorem range_filter_eq (t p : Nat) :
    (List.range t).filter (fun x => x == p) = if p < t then [p] else [] := by
  induction t with
  | zero => simp
  | succ t ih =>
    rw [List.range_succ, List.filter_append, ih]
    by_cases h1 : p < t
    · have h2 : ¬ (t == p) = true := by simp; omega
      have h3 : p < t + 1 := by omega
      simp [h1, h2, h3]
    · by_cases h4 : p = t
      · subst h4
        simp [h1]
      · have h5 : ¬ (t == p) = true := by simp; omega
        have h6 : ¬ p < t + 1 := by omega
        simp [h1, h5, h6]

/-- What the canonical write sequence deposits on logical element
(n, m): exactly one write, with the canonical addresses and values,
when (n, m) is a real element; nothing otherwise. -/
theorem writesTo_canonTrace (n m : Nat) :
    writesTo (c.canonTrace 0 c.total) n m =
      if n < c.N ∧ m < c.len n then [(c.outAddr n m, c.elemVals n m)] else [] := by
  unfold writesTo
  have h0 : c.canonTrace 0 c.total = (List.range c.total).map c.canonRec := by
    unfold canonTrace
    apply List.map_congr_left
    intro i _
    rw [Nat.zero_add]
  rw [h0, List.filter_map]
  by_cases hvalid : n < c.N ∧ m < c.len n
  · obtain ⟨hn, hm⟩ := hvalid
    have hfc : ∀ pos ∈ List.range c.total,
        ((fun r => r.n == n && r.m == m) ∘ c.canonRec) pos =
          (pos == (c.lengths.take n).sum + m) := by
      intro pos hpos
      have hpt : pos < c.total := List.mem_range.mp hpos
      obtain ⟨w1, w2, w3⟩ := walk_spec c.lengths pos hpt
      simp only [Function.comp_apply, canonRec, elemRec]
      apply Bool.eq_iff_iff.mpr
      simp only [Bool.and_eq_true, beq_iff_eq]
      constructor
      · rintro ⟨e1, e2⟩
        rw [← e1, ← e2]
        exact w3.symm
      · intro e
        rw [e, walk_posOf c.lengths n m hn hm]
        exact ⟨rfl, rfl⟩
    rw [List.filter_congr hfc, range_filter_eq c.total ((c.lengths.take n).sum + m),
      if_pos (show (c.lengths.take n).sum + m < c.total from posOf_lt c.lengths n m hn hm),
      if_pos (And.intro hn hm)]
    rw [List.map_cons, List.map_nil, canonRec_valid c n m hn hm]
    rfl
  · have hfc : ∀ pos ∈ List.range c.total,
        ((fun r => r.n == n && r.m == m) ∘ c.canonRec) pos = false := by
      intro pos hpos
      have hpt : pos < c.total := List.mem_range.mp hpos
      obtain ⟨w1, w2, w3⟩ := walk_spec c.lengths pos hpt
      simp only [Function.comp_apply, canonRec, elemRec]
      apply Bool.eq_false_iff.mpr
      intro hcontra
      simp only [Bool.and_eq_true, beq_iff_eq] at hcontra
      obtain ⟨e1, e2⟩ := hcontra
      apply hvalid
      refine ⟨?_, ?_⟩
      · exact e1 ▸ w1
      · rw [e1, e2] at w2
        exact w2
    rw [List.filter_congr hfc, if_neg hvalid]
    simp

/-- Wherever the walk stops inside the row list, it stops at an
offset inside that row. -/
theorem walk_stop :
    ∀ (L : List Nat) (pos : Nat), (walk L pos).1 < L.length →
      (walk L pos).2 < L.getD (walk L pos).1 0 := by
  intro L
  induction L with
  | nil => intro pos h; simp [walk_nil] at h
  | cons A T ih =>
    intro pos h
    by_cases hA : A ≤ pos
    · rw [walk_cons_ge T hA] at h ⊢
      simpa using ih (pos - A) (by simpa using h)
    · rw [walk_cons_lt T (Nat.not_le.mp hA)] at h ⊢
      simpa using Nat.not_le.mp hA

/-- Every write either regime performs targets a tracked element and
is that element's canonical write. -/
theorem mem_writes_canonical (ne : Nat) (r : WriteRec α)
    (hr : r ∈ c.flatWrites ne ∨ r ∈ c.blockWrites) :
    r.n < c.N ∧ (r.m = 0 ∨ r.m < c.len r.n) ∧ r = c.elemRec r.n r.m := by
  rcases hr with hr | hr
  · unfold flatWrites at hr
    rcases List.mem_flatMap.mp hr with ⟨gid, _, hgid⟩
    unfold chunkWrites at hgid
    by_cases hguard : c.N ≤ (walk c.lengths (gid * ne)).1
    · rw [if_pos hguard] at hgid
      simp at hgid
    · rw [if_neg hguard] at hgid
      have h1 : (walk c.lengths (gid * ne)).1 < c.N := Nat.not_le.mp hguard
      have h2 : (walk c.lengths (gid * ne)).2 < c.len (walk c.lengths (gid * ne)).1 :=
        walk_stop c.lengths (gid * ne) h1
      exact c.chunkLoop_mem ne true _ _ _ (c.initState_goodCur _ _)
        (fun hcontra => Bool.noConfusion hcontra) h1 (Or.inr h2) r hgid
  · unfold blockWrites at hr
    rcases List.mem_flatMap.mp hr with ⟨n, hn, hrow⟩
    rcases List.mem_filterMap.mp hrow with ⟨m, hm, hsome⟩
    by_cases hlt : m < c.len n
    · rw [if_pos hlt] at hsome
      have heq := Option.some.inj hsome
      rw [← heq]
      exact ⟨List.mem_range.mp hn, Or.inr hlt, rfl⟩
    · rw [if_neg hlt] at hsome
      simp at hsome

/-- Under the validated shape discipline the kernels' broadcast reads
agree with the claim-side description of broadcasting. -/
theorem readParam_eq_spec (k n m : Nat)
    (hsh : c.pShape k n = 1 ∨ c.pShape k n = c.len n)
    (hm : m = 0 ∨ m < c.len n) :
    c.readParam k n m = c.specParamRead k n m := by
  unfold readParam specParamRead
  by_cases hv : 1 < c.pShape k n
  · have h1 : ¬ c.pShape k n = 1 := by omega
    rw [if_pos hv, if_neg h1]
  · rcases hsh with h1 | h1
    · rw [if_neg hv, if_pos h1]
    · by_cases h2 : c.pShape k n = 1
      · rw [if_neg hv, if_pos h2]
      · have hlen0 : c.len n = 0 := by omega
        have hm0 : m = 0 := by omega
        have h3 : ¬ c.pShape k n = 1 := h2
        rw [if_neg hv, if_neg h3, hm0, Nat.add_zero]

theorem elemVals_eq_spec (n m : Nat)
    (hshape : ∀ k, k < c.ps.length → c.pShape k n = 1 ∨ c.pShape k n = c.len n)
    (hm : m = 0 ∨ m < c.len n) :
    c.elemVals n m = c.specElemVals n m := by
  unfold elemVals specElemVals
  refine congrArg _ ?_
  apply List.map_congr_left
  intro k hk
  exact c.readParam_eq_spec k n m (hshape k (List.mem_range.mp hk)) hm

end KernelCtx


/-! ### Behaviour of the parameter-shape validation -/

theorem checkParamFrom_ok (vname : String) (base shape : List Nat) :
    ∀ d i0, base.length - i0 ≤ d →
      (∀ i, i0 ≤ i → i < base.length →
        shape.getD i 0 = base.getD i 0 ∨ shape.getD i 0 = 1) →
      checkParamFrom vname base shape i0 = .ok () := by
  intro d
  induction d with
  | zero =>
    intro i0 hd _
    rw [checkParamFrom]
    have h : ¬ i0 < base.length := by omega
    rw [dif_neg h]
  | succ d ih =>
    intro i0 hd hgood
    rw [checkParamFrom]
    by_cases h : i0 < base.length
    · rw [dif_pos h, if_pos (hgood i0 (Nat.le_refl _) h)]
      exact ih (i0 + 1) (by omega) fun i hi1 hi2 => hgood i (by omega) hi2
    · rw [dif_neg h]

theorem checkParamFrom_error (vname : String) (base shape : List Nat) :
    ∀ d i0, base.length - i0 ≤ d →
      (∃ i, i0 ≤ i ∧ i < base.length ∧ shape.getD i 0 ≠ 1 ∧ shape.getD i 0 ≠ base.getD i 0) →
      ∃ i, i0 ≤ i ∧ i < base.length ∧ shape.getD i 0 ≠ 1 ∧ shape.getD i 0 ≠ base.getD i 0 ∧
        checkParamFrom vname base shape i0 =
          .error (shapeMsg vname i (base.getD i 0) (shape.getD i 0)) := by
  intro d
  induction d with
  | zero =>
    intro i0 hd hex
    obtain ⟨i, h1, h2, _⟩ := hex
    omega
  | succ d ih =>
    intro i0 hd hex
    have hlt : i0 < base.length := by
      obtain ⟨i, h1, h2, _⟩ := hex
      omega
    rw [checkParamFrom, dif_pos hlt]
    by_cases hok : shape.getD i0 0 = base.getD i0 0 ∨ shape.getD i0 0 = 1
    · rw [if_pos hok]
      have hex2 : ∃ i, i0 + 1 ≤ i ∧ i < base.length ∧
          shape.getD i 0 ≠ 1 ∧ shape.getD i 0 ≠ base.getD i 0 := by
        obtain ⟨i, h1, h2, h3, h4⟩ := hex
        have hne : i ≠ i0 := by
          rintro rfl
          rcases hok with hok | hok
          · exact h4 hok
          · exact h3 hok
        exact ⟨i, by omega, h2, h3, h4⟩
      obtain ⟨i, g1, g2, g3, g4, g5⟩ := ih (i0 + 1) (by omega) hex2
      exact ⟨i, by omega, g2, g3, g4, g5⟩
    · rw [if_neg hok]
      push_neg at hok
      exact ⟨i0, Nat.le_refl _, hlt, hok.2, hok.1, rfl⟩

theorem checkParams_error (base : List Nat) :
    ∀ (params : List (String × List Nat)),
      (∃ p ∈ params, ∃ i, i < base.length ∧
        (p.2).getD i 0 ≠ 1 ∧ (p.2).getD i 0 ≠ base.getD i 0) →
      ∃ vname shape i, (vname, shape) ∈ params ∧ i < base.length ∧
        shape.getD i 0 ≠ 1 ∧ shape.getD i 0 ≠ base.getD i 0 ∧
        checkParams base params =
          .error (shapeMsg vname i (base.getD i 0) (shape.getD i 0)) := by
  intro params
  induction params with
  | nil =>
    rintro ⟨p, hp, _⟩
    simp at hp
  | cons hd tl ih =>
    intro hex
    obtain ⟨vn, sh⟩ := hd
    by_cases hbad : ∃ i, i < base.length ∧ sh.getD i 0 ≠ 1 ∧ sh.getD i 0 ≠ base.getD i 0
    · have hex0 : ∃ i, 0 ≤ i ∧ i < base.length ∧
          sh.getD i 0 ≠ 1 ∧ sh.getD i 0 ≠ base.getD i 0 := by
        obtain ⟨i, a, b, c⟩ := hbad
        exact ⟨i, Nat.zero_le _, a, b, c⟩
      obtain ⟨i, _, hi2, hi3, hi4, heq⟩ :=
        checkParamFrom_error vn base sh base.length 0 (by omega) hex0
      refine ⟨vn, sh, i, List.mem_cons_self _ _, hi2, hi3, hi4, ?_⟩
      show (do
        checkParam vn base sh
        checkParams base tl) = _
      rw [show checkParam vn base sh =
        Except.error (shapeMsg vn i (base.getD i 0) (sh.getD i 0)) from heq]
      rfl
    · have hgood : ∀ i, 0 ≤ i → i < base.length →
          sh.getD i 0 = base.getD i 0 ∨ sh.getD i 0 = 1 := by
        intro i _ hi
        by_cases h1 : sh.getD i 0 = base.getD i 0
        · exact Or.inl h1
        · by_cases h2 : sh.getD i 0 = 1
          · exact Or.inr h2
          · exact absurd ⟨i, hi, h2, h1⟩ hbad
      have hok : checkParam vn base sh = .ok () :=
        checkParamFrom_ok vn base sh base.length 0 (by omega) hgood
      have hextl : ∃ p ∈ tl, ∃ i, i < base.length ∧
          (p.2).getD i 0 ≠ 1 ∧ (p.2).getD i 0 ≠ base.getD i 0 := by
        obtain ⟨p, hp, i, hi, h3, h4⟩ := hex
        rcases List.mem_cons.mp hp with hp | hp
        · subst hp
          exact absurd ⟨i, hi, h3, h4⟩ hbad
        · exact ⟨p, hp, i, hi, h3, h4⟩
      obtain ⟨vname, shape, i, hmem, g2, g3, g4, g5⟩ := ih hextl
      refine ⟨vname, shape, i, List.mem_cons_of_mem _ hmem, g2, g3, g4, ?_⟩
      show (do
        checkParam vn base sh
        checkParams base tl) = _
      rw [hok]
      show checkParams base tl = _
      exact g5

/-! ### Claim theorems -/

/-- Claim C1, counterexample: with lengths [1, 0, 1] and n_elements
= 2 the flattened kernel advances only one row at the boundary after
element (0, 0), spends its second iteration on a phantom element
(1, 0) of the empty row (reading and writing through the empty row's
start offsets), and never writes element (2, 0); the block kernel
writes element (2, 0) at its own address.  So the two regimes do not
write the same values to every element of every row for arbitrary
per-row lengths. -/
theorem c1_counterexample :
    writesTo (ctxZeroRow.flatWrites 2) 2 0 ≠ writesTo ctxZeroRow.blockWrites 2 0 := by
  decide

/-- Claim C1 (amended: every row length must be at least 1; the
claim as stated fails on batches containing a zero-length row): for
every batch with all row lengths at least 1, every elementwise
fragment, and every n_elements >= 1, the flattened-regime kernel
writes exactly the same (address, value) pairs to every logical
element (n, m) as the block-regime kernel. -/
theorem c1_flat_block_writes_equal {α : Type} (c : KernelCtx α) (ne : Nat)
    (hL : ∀ L ∈ c.lengths, 1 ≤ L) (hne : 1 ≤ ne) (n m : Nat) :
    writesTo (c.flatWrites ne) n m = writesTo c.blockWrites n m := by
  rw [c.flatWrites_canon hL ne hne, c.blockWrites_canon]

/-- Witness for c1_flat_block_writes_equal on a concrete batch. -/
theorem c1_witness :
    (∀ L ∈ ctxTwoRows.lengths, 1 ≤ L) ∧ 1 ≤ 2 ∧
      writesTo (ctxTwoRows.flatWrites 2) 0 1 = writesTo ctxTwoRows.blockWrites 0 1 :=
  ⟨by decide, by decide,
    c1_flat_block_writes_equal ctxTwoRows 2 (by decide) (by decide) 0 1⟩

/-- Claim C4: in both regimes, every write either kernel performs for
an element computes with parameters contributed exactly as the
broadcast contract states: a parameter row of length 1 contributes
its single value unchanged to the computation of every element of its
row (no drift across elements, chunk seams or row transitions of the
flattened kernel), and a parameter row of full base length
contributes its element m to the computation of element m.  The
hypothesis is the shape discipline the planner validates. -/
theorem c4_param_broadcast {α : Type} (c : KernelCtx α) (ne : Nat) (r : WriteRec α)
    (hshape : ∀ k, k < c.ps.length → ∀ i, i < c.N → c.pShape k i = 1 ∨ c.pShape k i = c.len i)
    (hr : r ∈ c.flatWrites ne ∨ r ∈ c.blockWrites) :
    r.vals = c.specElemVals r.n r.m ∧ r.addrs = c.outAddr r.n r.m := by
  obtain ⟨hn, hm, heq⟩ := c.mem_writes_canonical ne r hr
  obtain ⟨rn, rm, raddrs, rvals⟩ := r
  have heq2 : WriteRec.mk rn rm raddrs rvals =
      WriteRec.mk rn rm (c.outAddr rn rm) (c.elemVals rn rm) := heq
  injection heq2 with e1 e2 e3 e4
  subst e3
  subst e4
  exact ⟨c.elemVals_eq_spec rn rm (fun k hk => hshape k hk rn hn) hm, rfl⟩

/-- Witness for c4_param_broadcast on a concrete batch and write. -/
theorem c4_witness :
    (∀ k, k < ctxTwoRows.ps.length → ∀ i, i < ctxTwoRows.N →
      ctxTwoRows.pShape k i = 1 ∨ ctxTwoRows.pShape k i = ctxTwoRows.len i) ∧
    (ctxTwoRows.elemRec 1 0 ∈ ctxTwoRows.flatWrites 3 ∨
      ctxTwoRows.elemRec 1 0 ∈ ctxTwoRows.blockWrites) ∧
    ((ctxTwoRows.elemRec 1 0).vals =
        ctxTwoRows.specElemVals (ctxTwoRows.elemRec 1 0).n (ctxTwoRows.elemRec 1 0).m ∧
      (ctxTwoRows.elemRec 1 0).addrs =
        ctxTwoRows.outAddr (ctxTwoRows.elemRec 1 0).n (ctxTwoRows.elemRec 1 0).m) :=
  ⟨by decide, by decide,
    c4_param_broadcast ctxTwoRows 3 (ctxTwoRows.elemRec 1 0) (by decide) (by decide)⟩

/-- Claim C8: if some parameter has a row whose length is neither 1
nor the base row length, plan construction fails with the assertion
message naming that parameter, the row index, the expected base
length and the actual length, and no plan is produced. -/
theorem c8_bad_param_shape {α : Type} (c : KernelCtx α) (pnames : List String) (ne : Nat)
    (h : ∃ p ∈ pnames.zip (c.ps.map ParamRA.shape0s), ∃ i, i < c.N ∧
      (p.2).getD i 0 ≠ 1 ∧ (p.2).getD i 0 ≠ c.len i) :
    ∃ vname shape i, (vname, shape) ∈ pnames.zip (c.ps.map ParamRA.shape0s) ∧ i < c.N ∧
      shape.getD i 0 ≠ 1 ∧ shape.getD i 0 ≠ c.len i ∧
      buildPlan c pnames ne = Except.error (shapeMsg vname i (c.len i) (shape.getD i 0)) := by
  obtain ⟨vname, shape, i, hmem, hi, h1, h2, heq⟩ :=
    checkParams_error c.lengths (pnames.zip (c.ps.map ParamRA.shape0s)) h
  refine ⟨vname, shape, i, hmem, hi, h1, h2, ?_⟩
  show (do
    checkParams c.lengths (pnames.zip (c.ps.map ParamRA.shape0s))
    pure (if ne = 0 then c.blockWrites else c.flatWrites ne)) = _
  rw [heq]
  rfl

/-- Witness for c8_bad_param_shape on a concrete bad batch. -/
theorem c8_witness :
    (∃ p ∈ ["tau"].zip (ctxBadParam.ps.map ParamRA.shape0s), ∃ i, i < ctxBadParam.N ∧
      (p.2).getD i 0 ≠ 1 ∧ (p.2).getD i 0 ≠ ctxBadParam.len i) ∧
    ∃ vname shape i, (vname, shape) ∈ ["tau"].zip (ctxBadParam.ps.map ParamRA.shape0s) ∧
      i < ctxBadParam.N ∧ shape.getD i 0 ≠ 1 ∧ shape.getD i 0 ≠ ctxBadParam.len i ∧
      buildPlan ctxBadParam ["tau"] 0 =
        Except.error (shapeMsg vname i (ctxBadParam.len i) (shape.getD i 0)) :=
  ⟨by decide, c8_bad_param_shape ctxBadParam ["tau"] 0 (by decide)⟩

/-! ### LIF claims -/

/-- Claim C2, counterexample: when the integration update drives the
voltage negative while the refractory countdown is in the partial
window (sub_dt < W <= 2*sub_dt), the kernel forces V to 0 (its first
branch also tests v < 0), whereas the update described by the claim
scales the negative voltage and keeps it.  Here sub_dt = 1, tau = 1,
ref = 0, J = -4, V = 0, W = 3/2: the kernel yields V = 0, the claim
version V = -2. -/
theorem c2_counterexample :
    lifSubStep 1 1 0 (-4) (0, 3 / 2, false) ≠ lifSubStepClaim 1 1 0 (-4) (0, 3 / 2, false) := by
  norm_num [lifSubStep, lifSubStepClaim, lifClamp, Prod.ext_iff]

/-- Claim C2 (amended: the force-to-zero branch fires when W is deep
in refractory OR when the integrated voltage is negative): per
sub-step the kernel integrates V += (sub_dt/tau)(J - V), forces V to
0 if V < 0 or W > 2*sub_dt, else scales V by 1 - (W - sub_dt)/sub_dt
if sub_dt < W <= 2*sub_dt, then on V > 1 computes the overshoot,
spikes, sets W = ref - overshoot + sub_dt and resets V to 0, else
decrements W by sub_dt. -/
theorem c2_substep_matches_amended (dt tau ref j v w : ℚ) (sp : Bool) :
    lifSubStep dt tau ref j (v, w, sp) = lifSubStepAmended dt tau ref j (v, w, sp) := by
  simp only [lifSubStep, lifSubStepAmended, lifClamp]
  by_cases h1 : v + dt / tau * (j - v) < 0 ∨ 2 * dt < w
  · simp only [if_pos h1]
  · simp only [if_neg h1]
    push_neg at h1
    by_cases h2 : dt < w
    · have h3 : dt < w ∧ w ≤ 2 * dt := ⟨h2, h1.2⟩
      simp only [if_pos h2, if_pos h3, mul_one_div]
    · have h3 : ¬ (dt < w ∧ w ≤ 2 * dt) := fun hc => h2 hc.1
      simp only [if_neg h2, if_neg h3]

theorem list_any_congr {β : Type} (l : List β) (p q : β → Bool)
    (h : ∀ x ∈ l, p x = q x) : l.any p = l.any q := by
  induction l with
  | nil => rfl
  | cons a t ih =>
    rw [List.any_cons, List.any_cons, h a (List.mem_cons_self _ _),
      ih fun x hx => h x (List.mem_cons_of_mem _ hx)]

/-- One sub-step splits into its (v, w) action and an OR onto the
running spiked flag. -/
theorem lifSubStep_split (dt tau ref j v w : ℚ) (b : Bool) :
    lifSubStep dt tau ref j (v, w, b) =
      ((lifSubVW dt tau ref j (v, w)).1, (lifSubVW dt tau ref j (v, w)).2,
        b || lifSubSpikes dt tau ref j (v, w)) := by
  simp only [lifSubVW, lifSubSpikes, lifSubStep]
  by_cases h : 1 < lifClamp dt (v + dt / tau * (j - v)) w
  · simp [h]
  · simp [h]

/-- Iterating sub-steps: the (v, w) track follows the flag-free
sub-step, and the spiked flag is the OR of the fresh spike states of
all sub-steps taken. -/
theorem lifSubStep_iterate (dt tau ref j : ℚ) :
    ∀ (k : Nat) (v w : ℚ) (b : Bool),
      (lifSubStep dt tau ref j)^[k] (v, w, b) =
        (((lifSubVW dt tau ref j)^[k] (v, w)).1, ((lifSubVW dt tau ref j)^[k] (v, w)).2,
          b || (List.range k).any fun i =>
            lifSubSpikes dt tau ref j ((lifSubVW dt tau ref j)^[i] (v, w))) := by
  intro k
  induction k with
  | zero => intro v w b; simp
  | succ k ih =>
    intro v w b
    rw [Function.iterate_succ_apply, lifSubStep_split]
    rw [ih ((lifSubVW dt tau ref j) (v, w)).1 ((lifSubVW dt tau ref j) (v, w)).2
      (b || lifSubSpikes dt tau ref j (v, w))]
    have hvw : ∀ i : Nat,
        (lifSubVW dt tau ref j)^[i]
          (((lifSubVW dt tau ref j) (v, w)).1, ((lifSubVW dt tau ref j) (v, w)).2) =
        (lifSubVW dt tau ref j)^[i + 1] (v, w) := by
      intro i
      rw [Function.iterate_succ_apply]
    rw [hvw k]
    refine congrArg₂ _ rfl (congrArg₂ _ rfl ?_)
    rw [List.range_succ_eq_map, List.any_cons, Bool.or_assoc]
    refine congrArg₂ _ rfl (congrArg₂ _ rfl ?_)
    rw [List.any_map]
    apply list_any_congr
    intro i _
    simp only [Function.comp_apply]
    rw [hvw i]

/-- Claim C7 (amended: the spike indicator OR-accumulates the spike
states of all sub-steps; it is not the last sub-step's state): after
the k = upsample sub-steps of one tick, the written-back spike
indicator is 1.0 iff some sub-step spiked and 0.0 otherwise, and is
always one of 0.0 and 1.0 (never more than one spike is reported per
tick). -/
theorem c7_spike_indicator (dt tau ref j : ℚ) (k : Nat) (v w : ℚ) :
    (lifStep dt tau ref j k v w).2.2 =
      (if (List.range k).any (fun i =>
          lifSubSpikes (dt / (k : ℚ)) tau ref j ((lifSubVW (dt / (k : ℚ)) tau ref j)^[i] (v, w)))
        then (1 : ℚ) else 0) ∧
      ((lifStep dt tau ref j k v w).2.2 = 0 ∨ (lifStep dt tau ref j k v w).2.2 = 1) := by
  have h : (lifStep dt tau ref j k v w).2.2 =
      (if (List.range k).any (fun i =>
          lifSubSpikes (dt / (k : ℚ)) tau ref j ((lifSubVW (dt / (k : ℚ)) tau ref j)^[i] (v, w)))
        then (1 : ℚ) else 0) := by
    simp only [lifStep]
    rw [lifSubStep_iterate (dt / (k : ℚ)) tau ref j k v w false]
    simp
  refine ⟨h, ?_⟩
  rw [h]
  by_cases hany : (List.range k).any (fun i =>
      lifSubSpikes (dt / (k : ℚ)) tau ref j ((lifSubVW (dt / (k : ℚ)) tau ref j)^[i] (v, w)))
  · right
    rw [if_pos hany]
  · left
    rw [if_neg hany]

/-- Claim C7, counterexample to the last-sub-step reading: with
dt = 2, upsample = 2 (sub_dt = 1), tau = 1, ref = 10, J = 2 from
V = 0, W = 0, the first sub-step spikes and the second does not; the
kernel reports 1.0, not the last sub-step's spike state 0.0. -/
theorem c7_counterexample :
    (lifStep 2 1 10 2 2 0 0).2.2 = 1 ∧
      lifSubSpikes 1 1 10 2 ((lifSubVW 1 1 10 2)^[1] (0, 0)) = false := by
  have h1 : lifSubStep 1 1 10 2 (0, 0, false) = (0, 21 / 2, true) := by
    norm_num [lifSubStep, lifClamp]
  have h2 : lifSubStep 1 1 10 2 (0, 21 / 2, true) = (0, 19 / 2, true) := by
    norm_num [lifSubStep, lifClamp]
  have hsub : (2 : ℚ) / ((2 : Nat) : ℚ) = 1 := by norm_num
  constructor
  · simp only [lifStep]
    rw [hsub, show (2 : Nat) = 1 + 1 from rfl, Function.iterate_add_apply,
      Function.iterate_one]
    rw [h1, h2]
    norm_num
  · have hvw : (lifSubVW 1 1 10 2)^[1] (0, 0) = (0, 21 / 2) := by
      rw [Function.iterate_one]
      unfold lifSubVW
      rw [h1]
    rw [hvw]
    norm_num [lifSubSpikes, lifSubStep, lifClamp]

/-- The clamp stage never returns a negative voltage once the
force-to-zero branch is passed, and caps at the input. -/
theorem lifClamp_nonneg (dt v w : ℚ) (hdt : 0 < dt) : 0 ≤ lifClamp dt v w := by
  unfold lifClamp
  by_cases h1 : v < 0 ∨ 2 * dt < w
  · rw [if_pos h1]
  · rw [if_neg h1]
    push_neg at h1
    obtain ⟨hv, hw⟩ := h1
    by_cases h2 : dt < w
    · rw [if_pos h2]
      have hfac : 0 ≤ 1 - (w - dt) * (1 / dt) := by
        have h3 : (w - dt) * (1 / dt) ≤ dt * (1 / dt) := by
          apply mul_le_mul_of_nonneg_right (by linarith) (by positivity)
        have h4 : dt * (1 / dt) = 1 := by
          field_simp
        linarith
      exact mul_nonneg hv hfac
    · rw [if_neg h2]
      exact hv

/-- After any one sub-step with positive sub_dt, the voltage lies in
[0, 1]. -/
theorem lifSubStep_range (dt tau ref j : ℚ) (hdt : 0 < dt) (s : ℚ × ℚ × Bool) :
    0 ≤ (lifSubStep dt tau ref j s).1 ∧ (lifSubStep dt tau ref j s).1 ≤ 1 := by
  obtain ⟨v, w, b⟩ := s
  simp only [lifSubStep]
  by_cases h : 1 < lifClamp dt (v + dt / tau * (j - v)) w
  · rw [if_pos h]
    norm_num
  · rw [if_neg h]
    exact ⟨lifClamp_nonneg dt _ w hdt, by linarith [not_lt.mp h]⟩

/-- Claim C10: for any upsample k >= 1, input current, parameters and
initial V >= 0 with a positive timestep, the written-back voltage
lies in [0, 1]; and the clamp stage sends any negative integrated
voltage to exactly 0, for every refractory state W (triggered by
V < 0 alone, in the same branch as deep-refractory suppression). -/
theorem c10_voltage_range (dt tau ref j : ℚ) (k : Nat) (v w : ℚ)
    (hdt : 0 < dt) (hk : 1 ≤ k) (hv : 0 ≤ v) :
    (0 ≤ (lifStep dt tau ref j k v w).1 ∧ (lifStep dt tau ref j k v w).1 ≤ 1) ∧
      ∀ v1 w1 : ℚ, v1 < 0 → lifClamp (dt / (k : ℚ)) v1 w1 = 0 := by
  have hsub : 0 < dt / (k : ℚ) := by
    apply div_pos hdt
    exact_mod_cast Nat.lt_of_lt_of_le Nat.zero_lt_one hk
  constructor
  · simp only [lifStep]
    obtain ⟨k', rfl⟩ : ∃ k', k = k' + 1 := ⟨k - 1, by omega⟩
    rw [Function.iterate_succ_apply']
    exact lifSubStep_range (dt / ((k' + 1 : Nat) : ℚ)) tau ref j hsub _
  · intro v1 w1 hneg
    unfold lifClamp
    rw [if_pos (Or.inl hneg)]

/-- Witness for c10_voltage_range at concrete inputs. -/
theorem c10_witness :
    (0 : ℚ) < 1 ∧ 1 ≤ 1 ∧ (0 : ℚ) ≤ 0 ∧
      ((0 ≤ (lifStep 1 1 0 5 1 0 0).1 ∧ (lifStep 1 1 0 5 1 0 0).1 ≤ 1) ∧
        ∀ v1 w1 : ℚ, v1 < 0 → lifClamp (1 / ((1 : Nat) : ℚ)) v1 w1 = 0) :=
  ⟨by norm_num, le_refl 1, le_refl 0,
    c10_voltage_range 1 1 0 5 1 0 0 (by norm_num) (le_refl 1) (le_refl 0)⟩

/-! ### Probe-ring claims -/

/-- Claim C9: the branch condition guarding the two barrier sites of
the probe kernel depends only on the row coordinate (dimension-1 id)
and the pre-kernel value of that row's countdown; work-items of the
same row always evaluate it identically, so the whole work-group of a
row reaches the same barrier site. -/
theorem c9_probe_branch_uniform (countdowns : List Int) (n gid0a gid0b : Nat) :
    probeBranch countdowns gid0a n = probeBranch countdowns gid0b n ∧
      (probeBranch countdowns gid0a n = true ↔ countdowns.getD n 0 = 0) := by
  constructor
  · rfl
  · simp [probeBranch]

theorem probe_decr (p : Int) :
    ∀ (j : Nat) (cc : Int) (b : Nat), (j : Int) ≤ cc →
      (probeRowStep p)^[j] (cc, b) = (cc - j, b) := by
  intro j
  induction j with
  | zero => intro cc b _; simp
  | succ j ih =>
    intro cc b hj
    rw [Function.iterate_succ_apply]
    have hcc : ¬ cc = 0 := by
      push_cast at hj
      omega
    rw [show probeRowStep p (cc, b) = (cc - 1, b) from by simp [probeRowStep, hcc]]
    rw [ih (cc - 1) b (by push_cast at hj ⊢; omega)]
    have he : cc - 1 - (j : Int) = cc - ((j + 1 : Nat) : Int) := by
      push_cast
      ring
    rw [he]

theorem probe_cycle (p : Nat) (hp : 1 ≤ p) (b : Nat) :
    (probeRowStep (p : Int))^[p] (0, b) = (0, b + 1) := by
  obtain ⟨q, rfl⟩ : ∃ q, p = q + 1 := ⟨p - 1, by omega⟩
  rw [Function.iterate_succ_apply]
  rw [show probeRowStep (((q + 1 : Nat) : Int)) (0, b) = (((q + 1 : Nat) : Int) - 1, b + 1)
    from by simp [probeRowStep]]
  rw [probe_decr _ q _ _ (by push_cast; omega)]
  have he : ((q + 1 : Nat) : Int) - 1 - (q : Int) = 0 := by
    push_cast
    ring
  rw [he]

theorem probe_cycles (p : Nat) (hp : 1 ≤ p) :
    ∀ (k b : Nat), (probeRowStep (p : Int))^[p * k] (0, b) = (0, b + k) := by
  intro k
  induction k with
  | zero => intro b; simp
  | succ k ih =>
    intro b
    rw [show p * (k + 1) = p * k + p from by ring, Function.iterate_add_apply,
      probe_cycle p hp b, ih (b + 1)]
    rw [show b + 1 + k = b + (k + 1) from by omega]

theorem probe_midCycle (p r : Nat) (hr1 : 1 ≤ r) (hrp : r ≤ p) (b : Nat) :
    (probeRowStep (p : Int))^[r] (0, b) = ((p : Int) - r, b + 1) := by
  obtain ⟨r1, rfl⟩ : ∃ r1, r = r1 + 1 := ⟨r - 1, by omega⟩
  rw [Function.iterate_succ_apply]
  rw [show probeRowStep ((p : Nat) : Int) (0, b) = (((p : Nat) : Int) - 1, b + 1)
    from by simp [probeRowStep]]
  rw [probe_decr _ r1 _ _ (by push_cast; omega)]
  have he : ((p : Nat) : Int) - 1 - (r1 : Int) = (p : Int) - ((r1 + 1 : Nat) : Int) := by
    push_cast
    ring
  rw [he]

theorem probe_bound (p : Nat) (hp : 1 ≤ p) (cap s : Nat) (hs : s ≤ cap * p) :
    ((probeRowStep (p : Int))^[s] (0, 0)).2 ≤ cap := by
  have hdm := Nat.div_add_mod s p
  have hrp : s % p < p := Nat.mod_lt _ (by omega)
  have hs2 : s = s % p + p * (s / p) := by omega
  rw [hs2, Function.iterate_add_apply, probe_cycles p hp (s / p) 0]
  by_cases hr0 : s % p = 0
  · rw [hr0]
    simp only [Function.iterate_zero, id_eq]
    show 0 + s / p ≤ cap
    have hmul : p * (s / p) ≤ p * cap := by
      calc p * (s / p) ≤ s := by omega
        _ ≤ cap * p := hs
        _ = p * cap := by ring
    have := Nat.le_of_mul_le_mul_left hmul (by omega)
    omega
  · rw [probe_midCycle p (s % p) (by omega) (by omega) (0 + s / p)]
    show 0 + s / p + 1 ≤ cap
    have hmul : p * (s / p) < p * cap := by
      calc p * (s / p) < s := by omega
        _ ≤ cap * p := hs
        _ = p * cap := by ring
    have := Nat.lt_of_mul_lt_mul_left hmul
    omega

theorem runBatches_le (maxB : Nat) :
    ∀ N, ∀ B ∈ runBatches maxB N, B ≤ max maxB 1 := by
  intro N
  induction N using Nat.strong_induction_on with
  | _ N ih =>
    match N with
    | 0 =>
      intro B hB
      simp [runBatches] at hB
    | N + 1 =>
      intro B hB
      rw [runBatches] at hB
      rcases List.mem_cons.mp hB with rfl | hB
      · exact Nat.min_le_right _ _
      · exact ih _ (by omega) B hB

theorem foldl_min_le (t : List Nat) :
    ∀ a, t.foldl min a ≤ a ∧ ∀ x ∈ t, t.foldl min a ≤ x := by
  induction t with
  | nil =>
    intro a
    exact ⟨Nat.le_refl _, by simp⟩
  | cons b t ih =>
    intro a
    have h := ih (min a b)
    refine ⟨Nat.le_trans h.1 (Nat.min_le_left a b), ?_⟩
    intro x hx
    rcases List.mem_cons.mp hx with rfl | hx
    · exact Nat.le_trans h.1 (Nat.min_le_right a _)
    · exact h.2 x hx

theorem minPeriod_le (l : List Nat) (p : Nat) (hp : p ∈ l) : minPeriod l ≤ p := by
  cases l with
  | nil => simp at hp
  | cons a t =>
    unfold minPeriod
    rcases List.mem_cons.mp hp with rfl | hp
    · exact (foldl_min_le t p).1
    · exact (foldl_min_le t a).2 p hp

/-- Claim C5: starting from countdown = 0, bufposition = 0, a probe
row of period p reaches bufposition = n_prealloc after exactly
p * n_prealloc kernel executions without a drain; every batch the
run_steps loop executes between drains is at most
n_prealloc * min(periods) steps; and within any such batch the
row's bufposition never exceeds n_prealloc. -/
theorem c5_probe_ring (p nprealloc N : Nat) (periods : List Nat)
    (hp : p ∈ periods) (hp1 : 1 ≤ p) (hmaxB : 1 ≤ nprealloc * minPeriod periods) :
    ((probeRowStep (p : Int))^[p * nprealloc] (0, 0)).2 = nprealloc ∧
      (∀ B ∈ runBatches (nprealloc * minPeriod periods) N,
        B ≤ nprealloc * minPeriod periods) ∧
      (∀ s, s ≤ nprealloc * minPeriod periods →
        ((probeRowStep (p : Int))^[s] (0, 0)).2 ≤ nprealloc) := by
  refine ⟨?_, ?_, ?_⟩
  · rw [probe_cycles p hp1 nprealloc 0]
    simp
  · intro B hB
    have h := runBatches_le (nprealloc * minPeriod periods) N B hB
    omega
  · intro s hs
    exact probe_bound p hp1 nprealloc s
      (Nat.le_trans hs (Nat.mul_le_mul_left nprealloc (minPeriod_le periods p hp)))

/-- Witness for c5_probe_ring at period 2, two ring slots, periods
[2, 3], five requested steps. -/
theorem c5_witness :
    (2 ∈ [2, 3] ∧ 1 ≤ 2 ∧ 1 ≤ 2 * minPeriod [2, 3]) ∧
      (((probeRowStep ((2 : Nat) : Int))^[2 * 2] (0, 0)).2 = 2 ∧
        (∀ B ∈ runBatches (2 * minPeriod [2, 3]) 5, B ≤ 2 * minPeriod [2, 3]) ∧
        (∀ s, s ≤ 2 * minPeriod [2, 3] →
          ((probeRowStep ((2 : Nat) : Int))^[s] (0, 0)).2 ≤ 2)) :=
  ⟨⟨by decide, by decide, by decide⟩,
    c5_probe_ring 2 2 5 [2, 3] (by decide) (by decide) (by decide)⟩

/-! ### run_steps drain transparency (claim C6) -/

theorem drain_of_drained (s : ProbeState α) (hb : s.bufpos = 0) (hr : s.ring = []) :
    drain s = s := by
  obtain ⟨t, cd, bp, rg, ho⟩ := s
  simp only at hb hr
  subst hb
  subst hr
  simp [drain]

theorem obsEq_drain_left (s : ProbeState α) (h : s.bufpos = s.ring.length) :
    ObsEq (drain s) s := by
  refine ⟨rfl, rfl, rfl, h, ?_⟩
  show (s.host ++ s.ring.take s.bufpos) ++ [] = s.host ++ s.ring
  rw [h, List.take_length, List.append_nil]

theorem obsEq_tick (period : Int) (sig : Nat → α) (s1 s2 : ProbeState α)
    (h : ObsEq s1 s2) : ObsEq (tick period sig s1) (tick period sig s2) := by
  obtain ⟨ht, hc, h1, h2, hh⟩ := h
  unfold tick
  by_cases hcd : s1.countdown = 0
  · rw [if_pos hcd, if_pos (hc ▸ hcd)]
    refine ⟨by simp [ht], rfl, by simp [h1], by simp [h2], ?_⟩
    show s1.host ++ (s1.ring ++ [sig (s1.t + 1)]) = s2.host ++ (s2.ring ++ [sig (s2.t + 1)])
    rw [← List.append_assoc, ← List.append_assoc, hh, ht]
  · rw [if_neg hcd, if_neg (hc ▸ hcd)]
    exact ⟨by simp [ht], by simp [hc], h1, h2, hh⟩

theorem obsEq_tickN (period : Int) (sig : Nat → α) :
    ∀ (B : Nat) (s1 s2 : ProbeState α), ObsEq s1 s2 →
      ObsEq (tickN period sig B s1) (tickN period sig B s2) := by
  intro B
  induction B with
  | zero => intro s1 s2 h; exact h
  | succ B ih =>
    intro s1 s2 h
    unfold tickN
    rw [Function.iterate_succ_apply, Function.iterate_succ_apply]
    exact ih _ _ (obsEq_tick period sig s1 s2 h)

theorem drain_eq_of_obsEq (s1 s2 : ProbeState α) (h : ObsEq s1 s2) :
    drain s1 = drain s2 := by
  obtain ⟨ht, hc, h1, h2, hh⟩ := h
  unfold drain
  rw [h1, h2, List.take_length, List.take_length, ht, hc, hh]

theorem drain_tickN_drain (period : Int) (sig : Nat → α) (B : Nat) (X : ProbeState α)
    (hX : X.bufpos = X.ring.length) :
    drain (tickN period sig B (drain X)) = drain (tickN period sig B X) :=
  drain_eq_of_obsEq _ _ (obsEq_tickN period sig B _ _ (obsEq_drain_left X hX))

theorem tickN_wf (period : Int) (sig : Nat → α) :
    ∀ (B : Nat) (s : ProbeState α), s.bufpos = s.ring.length →
      (tickN period sig B s).bufpos = (tickN period sig B s).ring.length := by
  intro B
  induction B with
  | zero => intro s h; exact h
  | succ B ih =>
    intro s h
    unfold tickN
    rw [Function.iterate_succ_apply]
    refine ih _ ?_
    unfold tick
    by_cases hcd : s.countdown = 0
    · rw [if_pos hcd]
      simp [h]
    · rw [if_neg hcd]
      exact h

/-- Any run_steps call from a drained state equals running all its
ticks and draining once at the end. -/
theorem runSteps_drain (period : Int) (sig : Nat → α) (maxB : Nat) :
    ∀ (N : Nat) (s : ProbeState α), s.bufpos = 0 → s.ring = [] →
      runSteps period sig maxB N s = drain (tickN period sig N s) := by
  intro N
  induction N using Nat.strong_induction_on with
  | _ N ih =>
    match N with
    | 0 =>
      intro s hb hr
      rw [runSteps, show tickN period sig 0 s = s from rfl, drain_of_drained s hb hr]
    | N + 1 =>
      intro s hb hr
      rw [runSteps]
      have hwf : s.bufpos = s.ring.length := by rw [hb, hr]; rfl
      have hmin : 1 ≤ min (N + 1) (max maxB 1) := by omega
      rw [ih (N + 1 - min (N + 1) (max maxB 1)) (by omega) _ rfl rfl]
      rw [drain_tickN_drain period sig _ _ (tickN_wf period sig _ s hwf)]
      show drain ((tick period sig)^[N + 1 - min (N + 1) (max maxB 1)]
        ((tick period sig)^[min (N + 1) (max maxB 1)] s)) = _
      rw [← Function.iterate_add_apply]
      rw [show N + 1 - min (N + 1) (max maxB 1) + min (N + 1) (max maxB 1) = N + 1 from by omega]
      rfl

/-- Claim C6: for every N and any batching bound at least 1,
run_steps(N) leaves the same accumulated probe_data as N successive
run_steps(1) calls: drain interleaving is transparent to the sampled
output sequence. -/
theorem c6_run_steps_transparent (period : Int) (sig : Nat → α) (maxB N : Nat)
    (s : ProbeState α) (hmax : 1 ≤ maxB) (hb : s.bufpos = 0) (hr : s.ring = []) :
    (runSteps period sig maxB N s).host =
      ((fun s1 => runSteps period sig maxB 1 s1)^[N] s).host := by
  have hone : ∀ s1 : ProbeState α, runSteps period sig maxB 1 s1 =
      drain (tick period sig s1) := by
    intro s1
    rw [runSteps]
    have hm : min (0 + 1) (max maxB 1) = 1 := by omega
    rw [hm]
    show runSteps period sig maxB 0 (drain (tickN period sig 1 s1)) = _
    rw [runSteps]
    rfl
  have hiter : ∀ M, ((fun s1 => runSteps period sig maxB 1 s1)^[M] s) =
      (if M = 0 then s else drain (tickN period sig M s)) := by
    intro M
    induction M with
    | zero => simp
    | succ M ihM =>
      rw [Function.iterate_succ_apply', ihM]
      by_cases hM : M = 0
      · subst hM
        rw [if_pos rfl, if_neg (Nat.succ_ne_zero 0), hone s]
        rfl
      · rw [if_neg hM, if_neg (Nat.succ_ne_zero M), hone]
        have hwfM : (tickN period sig M s).bufpos = (tickN period sig M s).ring.length := by
          apply tickN_wf
          rw [hb, hr]
          rfl
        have h1 : tick period sig (drain (tickN period sig M s)) =
            tickN period sig 1 (drain (tickN period sig M s)) := rfl
        rw [h1, drain_tickN_drain period sig 1 _ hwfM]
        show drain ((tick period sig)^[1] ((tick period sig)^[M] s)) = _
        rw [← Function.iterate_add_apply]
        rw [show 1 + M = M + 1 from by omega]
        rfl
  rw [runSteps_drain period sig maxB N s hb hr, hiter N]
  by_cases hN : N = 0
  · subst hN
    rw [if_pos rfl]
    show (drain (tickN period sig 0 s)).host = s.host
    rw [show tickN period sig 0 s = s from rfl, drain_of_drained s hb hr]
  · rw [if_neg hN]

/-- Witness for c6_run_steps_transparent on a concrete three-step run
with period 2 and batching bound 2. -/
theorem c6_witness :
    (1 ≤ 2 ∧ (ProbeState.mk 0 0 0 [] [] : ProbeState Nat).bufpos = 0 ∧
        (ProbeState.mk 0 0 0 [] [] : ProbeState Nat).ring = []) ∧
      (runSteps 2 (fun t => t * 10) 2 3 (ProbeState.mk 0 0 0 [] [])).host =
        ((fun s1 => runSteps 2 (fun t => t * 10) 2 1 s1)^[3]
          (ProbeState.mk 0 0 0 [] [])).host :=
  ⟨⟨by decide, rfl, rfl⟩,
    c6_run_steps_transparent 2 (fun t => t * 10) 2 3 _ (by decide) rfl rfl⟩

/-! ### LIF rate claim (C3) -/

/-- Claim C3, counterexample: the generated kernel computes
r = dt / (ref + tau*log1p(1/max(J-1,0))), not
1 / (ref + tau*log1p(1/max(J-1,0))).  With dt = 2, tau = 0, ref = 1,
J = 5 the plan writes 2 while the claim formula gives 1. -/
theorem c3_counterexample :
    lifRateCtxC3.blockWrites.map WriteRec.vals = [[2]] ∧
      lifRateElemClaim 0 1 5 = 1 ∧ (2 : ℝ) ≠ 1 := by
  refine ⟨?_, ?_, by norm_num⟩
  · have hb : lifRateCtxC3.blockWrites.map WriteRec.vals = [[lifRateElem 2 0 1 5]] := rfl
    rw [hb]
    norm_num [lifRateElem]
  · norm_num [lifRateElemClaim]

/-- Claim C3 (amended: the kernel writes dt times the analytic
steady-state rate, r = dt / (ref + tau*log1p(1/max(J-1,0))), not the
bare rate): every write of a plan whose fragment is the lif_rate core
(one input row batch J, parameters [tau, ref]) carries, per element,
exactly that closed-form value of the broadcast-resolved J, tau and
ref at the element, in either regime, with no sub-stepping and no
state. -/
theorem c3_lif_rate_writes (dt : ℝ) (c : KernelCtx ℝ) (ne : Nat) (r : WriteRec ℝ)
    (hcore : c.core = lifRateCore dt) (hins : c.ins.length = 1) (hps : c.ps.length = 2)
    (hr : r ∈ c.flatWrites ne ∨ r ∈ c.blockWrites) :
    r.vals = [lifRateElem dt (c.readParam 0 r.n r.m) (c.readParam 1 r.n r.m)
      (c.readIn 0 r.n r.m)] := by
  obtain ⟨hn, hm, heq⟩ := c.mem_writes_canonical ne r hr
  obtain ⟨rn, rm, raddrs, rvals⟩ := r
  have heq2 : WriteRec.mk rn rm raddrs rvals =
      WriteRec.mk rn rm (c.outAddr rn rm) (c.elemVals rn rm) := heq
  injection heq2 with e1 e2 e3 e4
  subst e3
  subst e4
  show c.elemVals rn rm = _
  unfold KernelCtx.elemVals
  rw [hins, hps, hcore]
  rfl

/-- Witness for c3_lif_rate_writes on the concrete one-element
instance. -/
theorem c3_witness :
    (lifRateCtxC3.elemRec 0 0 ∈ lifRateCtxC3.flatWrites 1 ∨
      lifRateCtxC3.elemRec 0 0 ∈ lifRateCtxC3.blockWrites) ∧
      (lifRateCtxC3.elemRec 0 0).vals =
        [lifRateElem 2 (lifRateCtxC3.readParam 0 0 0) (lifRateCtxC3.readParam 1 0 0)
          (lifRateCtxC3.readIn 0 0 0)] := by
  have hb : lifRateCtxC3.blockWrites = [lifRateCtxC3.elemRec 0 0] := rfl
  have hmem : lifRateCtxC3.elemRec 0 0 ∈ lifRateCtxC3.blockWrites := by
    rw [hb]
    exact List.mem_singleton.mpr rfl
  exact ⟨Or.inr hmem,
    c3_lif_rate_writes 2 lifRateCtxC3 1 (lifRateCtxC3.elemRec 0 0) rfl rfl rfl (Or.inr hmem)⟩

end NengoOCL
